import Mathlib

set_option maxRecDepth 4000

/-!
Verification of the klog rendering engine (src/klog).

The development shallowly embeds the Python source:
* `wcswidth` / `wcwidthChar` model the `wcwidth` library used by
  `custom_formatter.py` (display-column arithmetic, `-1` for strings that
  contain a non-printable character, `2` for East-Asian wide characters);
* `wrapText` models `LogLineFormatter._wrap_text`;
* `calculateWidths`, `formatField`, `linePieces`, `formatLines` and
  `formatLine` model `LogLineFormatter._calculate_widths`,
  `_format_field` and `format_line`;
* the heap model (`Heap`, `getEffH`, `mergeDefaultsH`) and its value-level
  counterpart (`getEffV`, `mergeDefaultsV`) model
  `DefaultsManager.get_effective_defaults` / `_merge_defaults` from
  `defaults.py`, with Python object identity made explicit so that
  mutation claims can be stated.

Python strings are embedded as `List Char`; Python integers as `Int`.
Python's tolerant primitives (`s[:n]` with a negative bound, `s * n` and
`' ' * n` with a non-positive count, `str.ljust`/`str.rjust`) are embedded
by `pyTakeTo`, `pyRepeatStr`, `ljust`, `rjust` with the same semantics.
-/

/-! ## Display width: model of the `wcwidth` library -/

/-- Model of `wcwidth.wcwidth` for a single character: `0` for NUL and
zero-width/combining characters, `-1` for control characters, `2` for
East-Asian wide/fullwidth characters (the ranges relevant to this
development), `1` otherwise. -/
def wcwidthChar (c : Char) : Int :=
  if c.toNat = 0 then 0
  else if c.toNat < 0x20 ∨ (0x7f ≤ c.toNat ∧ c.toNat ≤ 0x9f) then -1
  else if (0x300 ≤ c.toNat ∧ c.toNat ≤ 0x36f) ∨
          (0x200b ≤ c.toNat ∧ c.toNat ≤ 0x200f) then 0
  else if (0x1100 ≤ c.toNat ∧ c.toNat ≤ 0x115f) ∨
          (0x2e80 ≤ c.toNat ∧ c.toNat ≤ 0x303e) ∨
          (0x3041 ≤ c.toNat ∧ c.toNat ≤ 0x33ff) ∨
          (0x3400 ≤ c.toNat ∧ c.toNat ≤ 0x4dbf) ∨
          (0x4e00 ≤ c.toNat ∧ c.toNat ≤ 0x9fff) ∨
          (0xac00 ≤ c.toNat ∧ c.toNat ≤ 0xd7a3) ∨
          (0xf900 ≤ c.toNat ∧ c.toNat ≤ 0xfaff) ∨
          (0xfe30 ≤ c.toNat ∧ c.toNat ≤ 0xfe4f) ∨
          (0xff00 ≤ c.toNat ∧ c.toNat ≤ 0xff60) ∨
          (0xffe0 ≤ c.toNat ∧ c.toNat ≤ 0xffe6) ∨
          (0x1f300 ≤ c.toNat ∧ c.toNat ≤ 0x1f64f) ∨
          (0x20000 ≤ c.toNat ∧ c.toNat ≤ 0x2fffd) then 2
  else 1

/-- Model of `wcwidth.wcswidth`: the sum of the character widths, or `-1`
as soon as some character is non-printable (exactly the accumulation loop
of the Python library). -/
def wcswidth : List Char → Int
  | [] => 0
  | c :: cs =>
    if wcwidthChar c < 0 then -1
    else
      let r := wcswidth cs
      if r < 0 then -1 else wcwidthChar c + r

/-! ## Python string primitives -/

/-- Python `s[:n]` (character slice; a negative bound counts from the end,
clamping at zero). -/
def pyTakeTo (s : List Char) (n : Int) : List Char :=
  if 0 ≤ n then s.take n.toNat else s.take ((s.length : Int) + n).toNat

/-- Python `s * n` for a string `s` (empty for non-positive counts). -/
def pyRepeatStr (s : List Char) (n : Int) : List Char :=
  (List.replicate n.toNat s).flatten

/-- Python `' ' * n` and friends: `n` copies of one character. -/
def pyRepeatChar (c : Char) (n : Int) : List Char :=
  List.replicate n.toNat c

/-- Python `s.ljust(w)` (space fill on the right, by character count). -/
def ljust (s : List Char) (w : Int) : List Char :=
  s ++ List.replicate (w - (s.length : Int)).toNat ' '

/-- Python `s.rjust(w)` (space fill on the left, by character count). -/
def rjust (s : List Char) (w : Int) : List Char :=
  List.replicate (w - (s.length : Int)).toNat ' ' ++ s

/-- The characters Python's `str.split()` treats as whitespace. -/
def isPySpace (c : Char) : Bool :=
  if c.toNat = 32 ∨ (9 ≤ c.toNat ∧ c.toNat ≤ 13) ∨ (28 ≤ c.toNat ∧ c.toNat ≤ 31) ∨
     c.toNat = 133 ∨ c.toNat = 160 ∨ c.toNat = 5760 ∨
     (8192 ≤ c.toNat ∧ c.toNat ≤ 8202) ∨ c.toNat = 8232 ∨ c.toNat = 8233 ∨
     c.toNat = 8239 ∨ c.toNat = 8287 ∨ c.toNat = 12288 then true else false

/-- Fueled worker for `wordsOf` (fuel bounds the recursion depth; the
wrappers always supply enough fuel). -/
def wordsGo : Nat → List Char → List (List Char)
  | 0, _ => []
  | _, [] => []
  | f + 1, c :: cs =>
    if isPySpace c then wordsGo f cs
    else (c :: cs.takeWhile (fun d => !isPySpace d)) ::
      wordsGo f (cs.dropWhile (fun d => !isPySpace d))

/-- Python `text.split()`: maximal runs of non-whitespace characters,
in order, empty runs dropped. -/
def wordsOf (s : List Char) : List (List Char) :=
  wordsGo s.length s

/-- Fueled worker for `chunksBy`. -/
def chunksGo : Nat → Nat → List Char → List (List Char)
  | 0, _, _ => []
  | _, _, [] => []
  | f + 1, w, l => l.take w :: chunksGo f w (l.drop w)

/-- Python `[word[i:i+w] for i in range(0, len(word), w)]` for `w ≥ 1`:
slice a string into chunks of `w` characters (the last may be shorter). -/
def chunksBy (w : Nat) (l : List Char) : List (List Char) :=
  chunksGo l.length w l

/-! ## The text wrapper (`LogLineFormatter._wrap_text`) -/

/-- The loop state of the word-wrap loop of `_wrap_text`: completed
`lines`, the joined current line, and the running display width counter. -/
structure WrapSt where
  lines : List (List Char)
  line : List Char
  width : Int
deriving Repr, DecidableEq

/-- One iteration of the `for word in words` loop of `_wrap_text`
(word-wrap mode), transcribed from `custom_formatter.py` lines 54-81. -/
def wrapStep (maxWidth : Int) (acc : WrapSt) (word : List Char) : WrapSt :=
  if acc.width + (if acc.line = [] then 0 else 1) + wcswidth word ≤ maxWidth then
    if acc.line = [] then ⟨acc.lines, word, acc.width + wcswidth word⟩
    else ⟨acc.lines, acc.line ++ ' ' :: word, acc.width + 1 + wcswidth word⟩
  else
    (if maxWidth < wcswidth word then
      ⟨(if acc.line = [] then acc.lines else acc.lines ++ [acc.line]) ++
          (chunksBy maxWidth.toNat word).dropLast,
        (chunksBy maxWidth.toNat word).getLastD [],
        wcswidth ((chunksBy maxWidth.toNat word).getLastD [])⟩
    else
      ⟨if acc.line = [] then acc.lines else acc.lines ++ [acc.line],
        word, wcswidth word⟩)

/-- The lines a wrap-loop state denotes: the completed lines, plus the
current line when it is non-empty (the final flush of `_wrap_text`). -/
def emitState (st : WrapSt) : List (List Char) :=
  st.lines ++ (if st.line = [] then [] else [st.line])

/-- `LogLineFormatter._wrap_text(text, max_width, word_wrap)`. -/
def wrapText (text : List Char) (maxWidth : Int) (wordWrap : Bool) : List (List Char) :=
  if text = [] ∨ maxWidth ≤ 0 then []
  else if !wordWrap then chunksBy maxWidth.toNat text
  else emitState ((wordsOf text).foldl (wrapStep maxWidth) ⟨[], [], 0⟩)

/-- The per-word effect of word wrapping on the word sequence: a word
wider than `maxWidth` is replaced by its character chunks, any other word
is kept whole. -/
def chunkOrSelf (maxWidth : Int) (word : List Char) : List (List Char) :=
  if maxWidth < wcswidth word then chunksBy maxWidth.toNat word else [word]

/-- A printable (width-one) ASCII character. -/
def asciiPrintable (c : Char) : Bool :=
  decide (32 ≤ c.toNat ∧ c.toNat ≤ 126)

/-- `l` is one of the character chunks of a word of `W` that is wider than
`maxWidth` (the over-long-word exception of the wrapping claim). -/
def chunkLineOf (maxWidth : Int) (W : List (List Char)) (l : List Char) : Prop :=
  ∃ word ∈ W, maxWidth < wcswidth word ∧ l ∈ chunksBy maxWidth.toNat word

/-- A line the word-wrapper may legitimately produce: display width within
`maxWidth`, or a chunk of an over-long word. -/
def goodLine (maxWidth : Int) (W : List (List Char)) (l : List Char) : Prop :=
  wcswidth l ≤ maxWidth ∨ chunkLineOf maxWidth W l

/-- Invariant of the word-wrap loop of `_wrap_text`: the width counter is
`0` on an empty current line and never below `-1`; the current line's
display width matches the counter unless it contains a non-printable
character; the current line is within budget unless it is an over-long
word chunk; and every completed line is `goodLine`. -/
def wrapInv (maxWidth : Int) (W : List (List Char)) (st : WrapSt) : Prop :=
  (st.line = [] → st.width = 0) ∧ -1 ≤ st.width ∧
  (st.line ≠ [] →
    (wcswidth st.line = st.width ∨ wcswidth st.line = -1) ∧
    (st.width ≤ maxWidth ∨ chunkLineOf maxWidth W st.line)) ∧
  ∀ l ∈ st.lines, goodLine maxWidth W l

/-! ## Field and layout configuration (`defaults.py` dataclasses) -/

/-- The `FieldConfig` dataclass of `defaults.py`: per-field configuration.
Fields in declaration order: `min_width`, `max_width`, `leading_char`,
`closing_char`, `padding_char`, `color`, `style`, `wrap`, `word_wrap`. -/
structure FieldC where
  min_width : Int
  max_width : Option Int
  leading_char : List Char
  closing_char : List Char
  padding_char : List Char
  color : Option (List Char)
  style : Option (List Char)
  wrap : Bool
  word_wrap : Bool
deriving Repr, DecidableEq

/-- The `LogConfig` dataclass of `defaults.py`, with the `fields` dict
modelled by its four slots (the formatter accesses exactly the keys
`message`, `padding`, `reason`, `status`); `level_styles` is omitted here
because `LogLineFormatter` never reads it (it is handled by the cascade
model below). -/
structure LogC where
  total_width : Int
  message : FieldC
  padding : FieldC
  reason : FieldC
  status : FieldC
deriving Repr, DecidableEq

/-- The four field names of the formatter. -/
inductive FName where
  | message
  | padding
  | reason
  | status
deriving Repr, DecidableEq

/-- `self.config.fields[field_name]`. -/
def fieldOf (cfg : LogC) : FName → FieldC
  | FName.message => cfg.message
  | FName.padding => cfg.padding
  | FName.reason => cfg.reason
  | FName.status => cfg.status

/-- The default `LogConfig()` of `defaults.py` (fields in `FieldC` order:
min_width, max_width, leading, closing, padding_char, color, style, wrap,
word_wrap). -/
def defaultLogC : LogC :=
  ⟨80,
    -- message: FieldConfig(min_width=20, max_width=55, wrap=True, word_wrap=True)
    ⟨20, some 55, [], [], [' '], none, none, true, true⟩,
    -- padding: FieldConfig(min_width=1, padding_char='.', leading_char=' ', closing_char=' ')
    ⟨1, none, [' '], [' '], ['.'], none, none, true, true⟩,
    -- reason: FieldConfig(max_width=22, leading_char='(', closing_char=')', wrap=False, word_wrap=True)
    ⟨0, some 22, ['('], [')'], [' '], none, none, false, true⟩,
    -- status: FieldConfig(max_width=10, wrap=False)
    ⟨0, some 10, [], [], [' '], none, none, false, true⟩⟩

/-- A configuration whose message field carries decoration: the default
configuration with `leading_char='['` and `closing_char=']'` on the
message field (as a template or per-call override can set). -/
def decoratedLogC : LogC :=
  ⟨80,
    ⟨20, some 55, ['['], [']'], [' '], none, none, true, true⟩,
    ⟨1, none, [' '], [' '], ['.'], none, none, true, true⟩,
    ⟨0, some 22, ['('], [')'], [' '], none, none, false, true⟩,
    ⟨0, some 10, [], [], [' '], none, none, false, true⟩⟩

/-! ## Styling (`text_styles.py` and `_apply_style`) -/

/-- `COLOR_CODES` from `text_styles.py`. -/
def COLOR_CODES : List (String × String) :=
  [("light_red", "\u001B[91m"), ("red", "\u001B[31m"), ("dark_red", "\u001B[31;2m"),
   ("light_green", "\u001B[92m"), ("green", "\u001B[32m"),
   ("dark_green", "\u001B[32;2m"), ("light_yellow", "\u001B[93m"),
   ("yellow", "\u001B[33m"), ("dark_yellow", "\u001B[33;2m"),
   ("light_orange", "\u001B[38;5;215m"), ("orange", "\u001B[38;5;208m"),
   ("dark_orange", "\u001B[38;5;202m"), ("light_blue", "\u001B[94m"),
   ("blue", "\u001B[34m"), ("dark_blue", "\u001B[34;2m"),
   ("light_purple", "\u001B[95m"), ("purple", "\u001B[35m"),
   ("dark_purple", "\u001B[35;2m"), ("light_pink", "\u001B[95m"),
   ("pink", "\u001B[38;5;205m"), ("dark_pink", "\u001B[38;5;95m"),
   ("white", "\u001B[37m"), ("grey", "\u001B[90m"), ("black", "\u001B[30m"),
   ("reset", "\u001B[0m")]

/-- `STYLE_CODES` from `text_styles.py`. -/
def STYLE_CODES : List (String × String) :=
  [("bold", "\u001B[1m"), ("italic", "\u001B[3m"), ("underlined", "\u001B[4m"),
   ("blink", "\u001B[5m"), ("reverse", "\u001B[7m"), ("hidden", "\u001B[8m"),
   ("default", "")]

/-- Python `table.get(key, '')`. -/
def lookupCode (table : List (String × String)) (key : String) : String :=
  match table.find? (fun p => p.1 == key) with
  | some p => p.2
  | none => ""

/-- Python `s.strip()` (strip leading and trailing whitespace). -/
def pyStrip (s : List Char) : List Char :=
  ((s.dropWhile isPySpace).reverse.dropWhile isPySpace).reverse

/-- `LogLineFormatter._apply_style(text, color, style)`: wrap the text in
the color code (if a truthy color is given), then in the style codes
(if a truthy style is given), each closed by the reset code. -/
def applyStyle (text : List Char) (color style : Option (List Char)) : List Char :=
  let t1 :=
    match color with
    | some c =>
      if c ≠ [] then
        (lookupCode COLOR_CODES (String.mk (pyStrip c))).data ++ text ++
          (lookupCode COLOR_CODES "reset").data
      else text
    | none => text
  match style with
  | some s =>
    if s ≠ [] then
      (((String.mk s).splitOn ",").flatMap (fun part =>
        if pyStrip part.data ≠ [] then
          (lookupCode STYLE_CODES (String.mk (pyStrip part.data))).data
        else [])) ++ t1 ++ (lookupCode COLOR_CODES "reset").data
    else t1
  | none => t1

/-! ## Field layout (`LogLineFormatter._calculate_widths`) -/

/-- The computed width map (`widths` dict of `_calculate_widths`). -/
structure WidthsV where
  message : Int
  reason : Int
  status : Int
  padding : Int
deriving Repr, DecidableEq

/-- The `if width > 0: if max_width: widths[field] = min(width, max_width)`
clamp of `_calculate_widths` (Python truthiness: a `None` or `0`
`max_width` skips the clamp). -/
def clampWidth (w : Int) (mw : Option Int) : Int :=
  if 0 < w then
    match mw with
    | some m => if m ≠ 0 then min w m else w
    | none => w
  else w

/-- `LogLineFormatter._calculate_widths(message, reason, status)`. A
`None` or empty `reason`/`status` is embedded as `[]` (both are falsy on
every path that reaches them). -/
def calculateWidths (cfg : LogC) (message reason status : List Char) : WidthsV :=
  let wm := clampWidth
    (wcswidth message + (cfg.message.leading_char.length : Int) +
      (cfg.message.closing_char.length : Int)) cfg.message.max_width
  let wr := clampWidth
    (if reason ≠ [] then
      wcswidth reason + (cfg.reason.leading_char.length : Int) +
        (cfg.reason.closing_char.length : Int)
     else 0) cfg.reason.max_width
  let ws := clampWidth
    (if status ≠ [] then
      wcswidth status + (cfg.status.leading_char.length : Int) +
        (cfg.status.closing_char.length : Int)
     else 0) cfg.status.max_width
  ⟨wm, wr, ws,
    max (cfg.padding.min_width + (cfg.padding.leading_char.length : Int) +
          (cfg.padding.closing_char.length : Int))
      (cfg.total_width - (wm + wr + ws))⟩

/-! ## Field rendering (`LogLineFormatter._format_field`) -/

/-- `LogLineFormatter._format_field(content, field_name, width)`. -/
def formatField (cfg : LogC) (content : List Char) (name : FName) (width : Int) :
    List (List Char) :=
  let fc := fieldOf cfg name
  if name = FName.padding then
    [fc.leading_char ++
      pyRepeatStr fc.padding_char
        (width - (fc.leading_char.length : Int) - (fc.closing_char.length : Int)) ++
      fc.closing_char]
  else
    let mcw := width - (fc.leading_char.length : Int) - (fc.closing_char.length : Int)
    if !fc.wrap then
      let truncated := if mcw < wcswidth content then pyTakeTo content mcw else content
      let raw := fc.leading_char ++ truncated ++ fc.closing_char
      if name = FName.message then [ljust raw width]
      else if name = FName.status then [raw]
      else [rjust raw width]
    else
      let wrapped := wrapText content mcw fc.word_wrap
      let formatted := (List.range wrapped.length).map (fun i =>
        let raw := (if i = 0 then fc.leading_char else []) ++ wrapped.getD i [] ++
          (if i = wrapped.length - 1 then fc.closing_char else [])
        if name = FName.message then ljust raw width
        else if name = FName.status then raw
        else rjust raw width)
      if formatted = [] then [[]] else formatted

/-! ## Line composition (`LogLineFormatter.format_line`) -/

/-- The message part of output line `i` of `format_line` (line 111-112):
the `i`-th wrapped message line, or a blank run of the message width. -/
def msgPiece (cfg : LogC) (message reason status : List Char) (i : Nat) :
    List Char :=
  applyStyle
    (if i < (formatField cfg message FName.message
        (calculateWidths cfg message reason status).message).length
     then (formatField cfg message FName.message
        (calculateWidths cfg message reason status).message).getD i []
     else pyRepeatChar ' ' (calculateWidths cfg message reason status).message)
    cfg.message.color cfg.message.style

/-- The padding part of every output line (lines 94 and 115). -/
def padPiece (cfg : LogC) (message reason status : List Char) : List Char :=
  applyStyle
    ((formatField cfg [] FName.padding
        (calculateWidths cfg message reason status).padding).headD [])
    cfg.padding.color cfg.padding.style

/-- The reason part of output line `i`, when the reason column renders at
all (lines 95 and 118-120); `[]` when the column is absent. -/
def reasonPieces (cfg : LogC) (message reason status : List Char) (i : Nat) :
    List (List Char) :=
  if (if reason ≠ [] ∧ 0 < (calculateWidths cfg message reason status).reason
      then formatField cfg reason FName.reason
        (calculateWidths cfg message reason status).reason
      else []) ≠ [] then
    [applyStyle
      (if i < (if reason ≠ [] ∧ 0 < (calculateWidths cfg message reason status).reason
          then formatField cfg reason FName.reason
            (calculateWidths cfg message reason status).reason
          else []).length
       then (if reason ≠ [] ∧ 0 < (calculateWidths cfg message reason status).reason
          then formatField cfg reason FName.reason
            (calculateWidths cfg message reason status).reason
          else []).getD i []
       else pyRepeatChar ' ' (calculateWidths cfg message reason status).reason)
      cfg.reason.color cfg.reason.style]
  else []

/-- The status part of output line `i` (lines 96 and 122-126): the styled
status on line 0, a blank run of the status width on later lines, `[]`
when the column is absent. -/
def statusPieces (cfg : LogC) (message reason status : List Char) (i : Nat) :
    List (List Char) :=
  if (if status ≠ [] ∧ 0 < (calculateWidths cfg message reason status).status
      then formatField cfg status FName.status
        (calculateWidths cfg message reason status).status
      else []) ≠ [] ∧ i = 0 then
    [applyStyle
      ((if status ≠ [] ∧ 0 < (calculateWidths cfg message reason status).status
        then formatField cfg status FName.status
          (calculateWidths cfg message reason status).status
        else []).headD [])
      cfg.status.color cfg.status.style]
  else if status ≠ [] ∧ 0 < i then
    [pyRepeatChar ' ' (calculateWidths cfg message reason status).status]
  else []

/-- The column pieces of output line `i` of `format_line`, in order
(message, padding, then reason and status when they render), transcribed
from `custom_formatter.py` lines 107-128. -/
def linePieces (cfg : LogC) (message reason status : List Char) (i : Nat) :
    List (List Char) :=
  [msgPiece cfg message reason status i, padPiece cfg message reason status] ++
    reasonPieces cfg message reason status i ++
    statusPieces cfg message reason status i

/-- `max_lines` of `format_line` (line 99-104). -/
def lineCount (cfg : LogC) (message reason status : List Char) : Nat :=
  let w := calculateWidths cfg message reason status
  let messageLines := formatField cfg message FName.message w.message
  let reasonLines :=
    if reason ≠ [] ∧ 0 < w.reason then formatField cfg reason FName.reason w.reason
    else []
  let statusLines :=
    if status ≠ [] ∧ 0 < w.status then formatField cfg status FName.status w.status
    else []
  max (max messageLines.length (max reasonLines.length statusLines.length)) 1

/-- The list of composed output lines of `format_line` (each entry is
`''.join(line_parts)` for one `i`). -/
def formatLines (cfg : LogC) (message reason status : List Char) :
    List (List Char) :=
  (List.range (lineCount cfg message reason status)).map
    (fun i => (linePieces cfg message reason status i).flatten)

/-- `LogLineFormatter.format_line(message, reason, status)`:
`'\n'.join(formatted_lines)`. -/
def formatLine (cfg : LogC) (message reason status : List Char) : List Char :=
  List.intercalate ['\n'] (formatLines cfg message reason status)

/-! ## The defaults cascade (`defaults.py`), with explicit object identity

`DefaultsManager.get_effective_defaults` and `_merge_defaults` mutate
`FieldConfig` objects through references (`setattr`) after `deepcopy`-ing
the base configuration.  To state the purity claims, `FieldConfig` objects
live on an explicit heap (`Heap`), a `LogConfig` object holds references
into it, and `derefLC` reads the value a configuration object denotes.
`getEffV`/`mergeDefaultsV` are the value-level counterparts. -/

/-- A Python attribute value, as written by `setattr` in the cascade. -/
inductive AttrVal where
  | vInt : Int → AttrVal
  | vStr : List Char → AttrVal
  | vBool : Bool → AttrVal
  | vNone : AttrVal
deriving Repr, DecidableEq

/-- A `FieldConfig` object, as its attribute dictionary (Python `setattr`
can write any attribute name). -/
abbrev Obj := List (String × AttrVal)

/-- The heap of `FieldConfig` objects; a reference is an index. -/
abbrev Heap := List Obj

/-- Python attribute/dict update: replace the first binding of `k`, or
append a new one. -/
def assocSet (o : Obj) (k : String) (v : AttrVal) : Obj :=
  match o with
  | [] => [(k, v)]
  | (k', v') :: rest =>
    if k' = k then (k, v) :: rest else (k', v') :: assocSet rest k v

/-- Dereference a `FieldConfig` reference. -/
def derefObj (h : Heap) (r : Nat) : Obj := h.getD r []

/-- `setattr(heap[r], k, v)`. -/
def heapSet (h : Heap) (r : Nat) (k : String) (v : AttrVal) : Heap :=
  h.set r (assocSet (derefObj h r) k v)

/-- The `level_styles` table of `LogConfig` (read-only in the resolver,
kept by value): level name → field name → attribute overrides. -/
abbrev LevelStyles := List (String × List (String × List (String × AttrVal)))

/-- A `LogConfig` object: `total_width`, the `fields` dict as an
association list of names to `FieldConfig` references, `level_styles`. -/
structure LCObj where
  total_width : Int
  fields : List (String × Nat)
  level_styles : LevelStyles
deriving Repr, DecidableEq

/-- The value a `LogConfig` object denotes (every reference read). -/
structure LCVal where
  total_width : Int
  fieldsV : List (String × Obj)
  level_stylesV : LevelStyles
deriving Repr, DecidableEq

/-- Read the value of a `LogConfig` object. -/
def derefLC (h : Heap) (lc : LCObj) : LCVal :=
  ⟨lc.total_width, lc.fields.map (fun p => (p.1, derefObj h p.2)),
    lc.level_styles⟩

/-- Fresh references `start, start+1, …` for the given field names. -/
def attachRefs (start : Nat) : List (String × Nat) → List (String × Nat)
  | [] => []
  | (n, _) :: rest => (n, start) :: attachRefs (start + 1) rest

/-- `copy.deepcopy` of a `LogConfig` object: each referenced `FieldConfig`
object is copied into a fresh cell.  (The field objects of one config are
pairwise distinct objects, so `deepcopy`'s memoisation keeps the copies
distinct as well.) -/
def deepcopyLC (h : Heap) (lc : LCObj) : Heap × LCObj :=
  (h ++ lc.fields.map (fun p => derefObj h p.2),
    ⟨lc.total_width, attachRefs h.length lc.fields, lc.level_styles⟩)

/-- An override blob (`template_config` or `**kwargs`): the resolver reads
only its `total_width` and `fields` keys. -/
structure Override where
  total_width : Option Int
  fields : List (String × List (String × AttrVal))
deriving Repr, DecidableEq

/-- `field_name in result.fields` / `result.fields[field_name]`. -/
def lookupRef (fs : List (String × Nat)) (name : String) : Option Nat :=
  match fs.find? (fun p => p.1 == name) with
  | some p => some p.2
  | none => none

/-- `for key, value in field_config.items(): setattr(obj, key, value)`. -/
def setAttrsH (h : Heap) (r : Nat) (attrs : List (String × AttrVal)) : Heap :=
  attrs.foldl (fun hh kv => heapSet hh r kv.1 kv.2) h

/-- One override entry of the `for field_name, field_config in
override['fields'].items()` loop: applied only when the field name exists
in the config's fields dict, silently skipped otherwise. -/
def applyEntryH (fs : List (String × Nat)) (h : Heap)
    (e : String × List (String × AttrVal)) : Heap :=
  match lookupRef fs e.1 with
  | some r => setAttrsH h r e.2
  | none => h

/-- `DefaultsManager._merge_defaults(base, override)`, heap level:
deep-copy the base, overwrite `total_width` when present, patch the named
fields attribute by attribute. -/
def mergeDefaultsH (h : Heap) (base : LCObj) (ov : Override) : Heap × LCObj :=
  (ov.fields.foldl (applyEntryH (attachRefs h.length base.fields))
      (deepcopyLC h base).1,
    ⟨(match ov.total_width with
      | some t => t
      | none => base.total_width),
      attachRefs h.length base.fields, base.level_styles⟩)

/-- The level-style pass of `get_effective_defaults` (lines 54-59):
`config.level_styles[level]` applied field by field via `setattr`. -/
def applyLevelStylesH (h : Heap) (cfg : LCObj) (level : String) : Heap :=
  match cfg.level_styles.find? (fun p => p.1 == level) with
  | some pr => pr.2.foldl (applyEntryH cfg.fields) h
  | none => h

/-- Lines 47-51 of `get_effective_defaults`: deep-copy the system
defaults, then merge the template config when it is truthy. -/
def getEffStage2 (h : Heap) (sys : LCObj) (templateConfig : Option Override) :
    Heap × LCObj :=
  match templateConfig with
  | some tc => mergeDefaultsH (deepcopyLC h sys).1 (deepcopyLC h sys).2 tc
  | none => deepcopyLC h sys

/-- Lines 53-59: apply the level styles when `level` is truthy (the
config object itself is unchanged — only its field objects are written). -/
def getEffStage3 (s2 : Heap × LCObj) (level : Option String) : Heap :=
  match level with
  | some lv => if lv ≠ "" then applyLevelStylesH s2.1 s2.2 lv else s2.1
  | none => s2.1

/-- `DefaultsManager.get_effective_defaults`, heap level.  `none` encodes
a Python-falsy `template_config`/`level`/`kwargs` (the `if` guards of
lines 50, 54 and 62). -/
def getEffH (h : Heap) (sys : LCObj) (templateConfig : Option Override)
    (level : Option String) (kwargs : Option Override) : Heap × LCObj :=
  match kwargs with
  | some kw =>
    mergeDefaultsH (getEffStage3 (getEffStage2 h sys templateConfig) level)
      (getEffStage2 h sys templateConfig).2 kw
  | none =>
    (getEffStage3 (getEffStage2 h sys templateConfig) level,
      (getEffStage2 h sys templateConfig).2)

/-- Value-level counterpart of one override entry: patch the first field
of that name, attribute by attribute; unknown names change nothing. -/
def assocSetField (fs : List (String × Obj)) (name : String)
    (attrs : List (String × AttrVal)) : List (String × Obj) :=
  match fs with
  | [] => []
  | (n, o) :: rest =>
    if n = name then
      (n, attrs.foldl (fun oo kv => assocSet oo kv.1 kv.2) o) :: rest
    else (n, o) :: assocSetField rest name attrs

/-- `_merge_defaults`, value level. -/
def mergeDefaultsV (base : LCVal) (ov : Override) : LCVal :=
  ⟨(match ov.total_width with
    | some t => t
    | none => base.total_width),
    ov.fields.foldl (fun fs e => assocSetField fs e.1 e.2) base.fieldsV,
    base.level_stylesV⟩

/-- The level-style pass, value level. -/
def applyLevelStylesV (cfg : LCVal) (level : String) : LCVal :=
  match cfg.level_stylesV.find? (fun p => p.1 == level) with
  | some pr =>
    ⟨cfg.total_width, pr.2.foldl (fun fs e => assocSetField fs e.1 e.2) cfg.fieldsV,
      cfg.level_stylesV⟩
  | none => cfg

/-- Value level of `getEffStage2` (a deep copy is the identity on
values). -/
def getEffStage2V (sys : LCVal) (templateConfig : Option Override) : LCVal :=
  match templateConfig with
  | some tc => mergeDefaultsV sys tc
  | none => sys

/-- Value level of `getEffStage3`. -/
def getEffStage3V (c2 : LCVal) (level : Option String) : LCVal :=
  match level with
  | some lv => if lv ≠ "" then applyLevelStylesV c2 lv else c2
  | none => c2

/-- `get_effective_defaults`, value level. -/
def getEffV (sys : LCVal) (templateConfig : Option Override)
    (level : Option String) (kwargs : Option Override) : LCVal :=
  match kwargs with
  | some kw => mergeDefaultsV (getEffStage3V (getEffStage2V sys templateConfig) level) kw
  | none => getEffStage3V (getEffStage2V sys templateConfig) level

/-- The default `LogConfig()` as heap objects (attribute dictionaries in
dataclass declaration order). -/
def defaultHeap : Heap :=
  [[("min_width", AttrVal.vInt 20), ("max_width", AttrVal.vInt 55),
    ("leading_char", AttrVal.vStr []), ("closing_char", AttrVal.vStr []),
    ("padding_char", AttrVal.vStr [' ']), ("color", AttrVal.vNone),
    ("style", AttrVal.vNone), ("wrap", AttrVal.vBool true),
    ("word_wrap", AttrVal.vBool true)],
   [("min_width", AttrVal.vInt 1), ("max_width", AttrVal.vNone),
    ("leading_char", AttrVal.vStr [' ']), ("closing_char", AttrVal.vStr [' ']),
    ("padding_char", AttrVal.vStr ['.']), ("color", AttrVal.vNone),
    ("style", AttrVal.vNone), ("wrap", AttrVal.vBool true),
    ("word_wrap", AttrVal.vBool true)],
   [("min_width", AttrVal.vInt 0), ("max_width", AttrVal.vInt 22),
    ("leading_char", AttrVal.vStr ['(']), ("closing_char", AttrVal.vStr [')']),
    ("padding_char", AttrVal.vStr [' ']), ("color", AttrVal.vNone),
    ("style", AttrVal.vNone), ("wrap", AttrVal.vBool false),
    ("word_wrap", AttrVal.vBool true)],
   [("min_width", AttrVal.vInt 0), ("max_width", AttrVal.vInt 10),
    ("leading_char", AttrVal.vStr []), ("closing_char", AttrVal.vStr []),
    ("padding_char", AttrVal.vStr [' ']), ("color", AttrVal.vNone),
    ("style", AttrVal.vNone), ("wrap", AttrVal.vBool false),
    ("word_wrap", AttrVal.vBool true)]]

/-- The default `level_styles` table of `LogConfig`. -/
def defaultLevelStyles : LevelStyles :=
  [("DEBUG", [("status", [("color", AttrVal.vStr "blue".data),
    ("style", AttrVal.vStr "bold".data)])]),
   ("INFO", [("status", [("color", AttrVal.vStr "green".data),
    ("style", AttrVal.vStr "bold".data)])]),
   ("WARNING", [("status", [("color", AttrVal.vStr "yellow".data),
    ("style", AttrVal.vStr "bold".data)])]),
   ("ERROR", [("status", [("color", AttrVal.vStr "red".data),
    ("style", AttrVal.vStr "bold".data)])]),
   ("CRITICAL", [("status", [("color", AttrVal.vStr "red".data),
    ("style", AttrVal.vStr "bold,blink".data)])])]

/-- The default `LogConfig()` object over `defaultHeap`. -/
def defaultLCObj : LCObj :=
  ⟨80, [("message", 0), ("padding", 1), ("reason", 2), ("status", 3)],
    defaultLevelStyles⟩

/-- The value of the default `LogConfig()`. -/
def defaultLCVal : LCVal := derefLC defaultHeap defaultLCObj

/-- A sample override blob used by the cascade witnesses: overrides
`total_width`, patches `message.color`, and names an unknown field. -/
def sampleOverride : Override :=
  ⟨some 100, [("message", [("color", AttrVal.vStr "red".data)]),
    ("bogus", [("min_width", AttrVal.vInt 5)])]⟩

/-- The resolver only allocates above `n`: the heap grows and every cell
below `n` is untouched. -/
def HeapExtends (n : Nat) (h h' : Heap) : Prop :=
  n ≤ h'.length ∧ ∀ i, i < n → derefObj h' i = derefObj h i

/-- A configuration object is well-placed over a heap: its field
references are distinct, at least `n`, and live. -/
def CfgOk (n : Nat) (h : Heap) (cfg : LCObj) : Prop :=
  (∀ p ∈ cfg.fields, n ≤ p.2 ∧ p.2 < h.length) ∧
    (cfg.fields.map Prod.snd).Nodup

/-- Character provenance invariant of the wrap loop. -/
def wrapStChars (P : Char → Prop) (st : WrapSt) : Prop :=
  (∀ l ∈ st.lines, ∀ c ∈ l, P c) ∧ ∀ c ∈ st.line, P c

/-! ## Lemmas about display width -/

theorem wcwidthChar_ascii {c : Char} (h : asciiPrintable c = true) :
    wcwidthChar c = 1 := by
  have hn : 32 ≤ c.toNat ∧ c.toNat ≤ 126 := by simpa [asciiPrintable] using h
  unfold wcwidthChar
  rw [if_neg (by omega), if_neg (by omega), if_neg (by omega), if_neg (by omega)]

theorem wcswidth_ascii {l : List Char} (h : ∀ c ∈ l, asciiPrintable c = true) :
    wcswidth l = (l.length : Int) := by
  induction l with
  | nil => rfl
  | cons c cs ih =>
    have hc : wcwidthChar c = 1 := wcwidthChar_ascii (h c (by simp))
    have hcs : wcswidth cs = (cs.length : Int) := ih fun d hd => h d (by simp [hd])
    simp only [wcswidth, hc, hcs]
    rw [if_neg (by omega), if_neg (by omega)]
    simp
    omega

theorem wcswidth_nonneg_or (l : List Char) :
    wcswidth l = -1 ∨ 0 ≤ wcswidth l := by
  induction l with
  | nil => right; simp [wcswidth]
  | cons c cs ih =>
    by_cases hc : wcwidthChar c < 0
    · left; simp [wcswidth, hc]
    · rcases ih with h | h
      · left; simp [wcswidth, hc, h]
      · by_cases hr : wcswidth cs < 0
        · left; simp [wcswidth, hc, hr]
        · right; simp only [wcswidth, if_neg hc, if_neg hr]; omega

theorem wcswidth_cons (c : Char) (cs : List Char) :
    wcswidth (c :: cs) =
      if wcwidthChar c < 0 then -1
      else if wcswidth cs < 0 then -1 else wcwidthChar c + wcswidth cs := rfl

theorem wcswidth_append (a b : List Char) :
    wcswidth (a ++ b) =
      if wcswidth a < 0 ∨ wcswidth b < 0 then -1
      else wcswidth a + wcswidth b := by
  induction a with
  | nil =>
    simp only [List.nil_append, wcswidth]
    rcases wcswidth_nonneg_or b with h | h
    · simp [h]
    · rw [if_neg (by omega)]; omega
  | cons c cs ih =>
    rw [List.cons_append, wcswidth_cons, wcswidth_cons, ih]
    split_ifs <;> omega

/-! ## Lemmas about character chunking -/

theorem chunksGo_flatten {w : Nat} (hw : 1 ≤ w) :
    ∀ (f : Nat) (l : List Char), l.length ≤ f → (chunksGo f w l).flatten = l := by
  intro f
  induction f with
  | zero =>
    intro l hl
    have : l = [] := List.length_eq_zero.mp (Nat.le_zero.mp hl)
    simp [this, chunksGo]
  | succ n ih =>
    intro l hl
    cases l with
    | nil => simp [chunksGo]
    | cons c cs =>
      have hdrop : (List.drop w (c :: cs)).length ≤ n := by
        simp only [List.length_drop, List.length_cons]
        simp only [List.length_cons] at hl
        omega
      simp only [chunksGo, List.flatten_cons, ih _ hdrop, List.take_append_drop]

theorem chunksGo_mem_length {w : Nat} :
    ∀ (f : Nat) (l c : List Char), c ∈ chunksGo f w l → c.length ≤ w := by
  intro f
  induction f with
  | zero => intro l c hc; simp [chunksGo] at hc
  | succ n ih =>
    intro l c hc
    cases l with
    | nil => simp [chunksGo] at hc
    | cons x xs =>
      simp only [chunksGo, List.mem_cons] at hc
      rcases hc with hc | hc
      · subst hc; exact List.length_take_le w (x :: xs)
      · exact ih _ _ hc

theorem chunksGo_mem_ne_nil {w : Nat} (hw : 1 ≤ w) :
    ∀ (f : Nat) (l c : List Char), c ∈ chunksGo f w l → c ≠ [] := by
  intro f
  induction f with
  | zero => intro l c hc; simp [chunksGo] at hc
  | succ n ih =>
    intro l c hc
    cases l with
    | nil => simp [chunksGo] at hc
    | cons x xs =>
      simp only [chunksGo, List.mem_cons] at hc
      rcases hc with hc | hc
      · subst hc
        simp only [ne_eq, ← List.length_pos]
        rw [List.length_take]
        simp only [List.length_cons]
        omega
      · exact ih _ _ hc

theorem chunksGo_dropLast_length {w : Nat} (hw : 1 ≤ w) :
    ∀ (f : Nat) (l : List Char), l.length ≤ f →
      ∀ c ∈ (chunksGo f w l).dropLast, c.length = w := by
  intro f
  induction f with
  | zero => intro l hl c hc; simp [chunksGo] at hc
  | succ n ih =>
    intro l hl c hc
    cases l with
    | nil => simp [chunksGo] at hc
    | cons x xs =>
      by_cases hrest : List.drop w (x :: xs) = []
      · -- single chunk: dropLast of a singleton is empty
        have : chunksGo n w (List.drop w (x :: xs)) = [] := by
          rw [hrest]; cases n <;> rfl
        simp [chunksGo, this] at hc
      · have hne : chunksGo n w (List.drop w (x :: xs)) ≠ [] := by
          cases hdl : List.drop w (x :: xs) with
          | nil => exact absurd hdl hrest
          | cons y ys =>
            have hlen : (y :: ys).length ≤ n := by
              have := congrArg List.length hdl
              simp only [List.length_drop, List.length_cons] at this ⊢
              simp only [List.length_cons] at hl
              omega
            cases n with
            | zero => simp at hlen
            | succ m => simp [chunksGo]
        simp only [chunksGo] at hc
        rw [List.dropLast_cons_of_ne_nil hne] at hc
        rcases List.mem_cons.mp hc with hc | hc
        · subst hc
          rw [List.length_take]
          have : w < (x :: xs).length := by
            by_contra hcon
            exact hrest (List.drop_eq_nil_of_le (by omega))
          omega
        · refine ih _ ?_ _ hc
          simp only [List.length_drop, List.length_cons]
          simp only [List.length_cons] at hl
          omega

theorem chunksGo_ne_nil {w : Nat} :
    ∀ (f : Nat) (l : List Char), l ≠ [] → l.length ≤ f → chunksGo f w l ≠ [] := by
  intro f
  induction f with
  | zero =>
    intro l hne hl
    exact absurd (List.length_eq_zero.mp (Nat.le_zero.mp hl)) hne
  | succ n _ =>
    intro l hne _
    cases l with
    | nil => exact absurd rfl hne
    | cons x xs => simp [chunksGo]

theorem chunksGo_mem_subset {w : Nat} :
    ∀ (f : Nat) (l c : List Char), c ∈ chunksGo f w l → ∀ x ∈ c, x ∈ l := by
  intro f
  induction f with
  | zero => intro l c hc; simp [chunksGo] at hc
  | succ n ih =>
    intro l c hc x hx
    cases l with
    | nil => simp [chunksGo] at hc
    | cons y ys =>
      simp only [chunksGo, List.mem_cons] at hc
      rcases hc with hc | hc
      · subst hc; exact List.take_subset _ _ hx
      · exact List.drop_subset _ _ (ih _ _ hc x hx)

theorem chunksBy_flatten {w : Nat} (hw : 1 ≤ w) (l : List Char) :
    (chunksBy w l).flatten = l :=
  chunksGo_flatten hw l.length l le_rfl

theorem chunksBy_mem_length {w : Nat} {l c : List Char} (hc : c ∈ chunksBy w l) :
    c.length ≤ w :=
  chunksGo_mem_length l.length l c hc

theorem chunksBy_mem_ne_nil {w : Nat} (hw : 1 ≤ w) {l c : List Char}
    (hc : c ∈ chunksBy w l) : c ≠ [] :=
  chunksGo_mem_ne_nil hw l.length l c hc

theorem chunksBy_dropLast_length {w : Nat} (hw : 1 ≤ w) {l : List Char} :
    ∀ c ∈ (chunksBy w l).dropLast, c.length = w :=
  chunksGo_dropLast_length hw l.length l le_rfl

theorem chunksBy_ne_nil {w : Nat} {l : List Char} (hne : l ≠ []) :
    chunksBy w l ≠ [] :=
  chunksGo_ne_nil l.length l hne le_rfl

theorem chunksBy_mem_subset {w : Nat} {l c : List Char} (hc : c ∈ chunksBy w l) :
    ∀ x ∈ c, x ∈ l :=
  chunksGo_mem_subset l.length l c hc

/-! ## C2: character-boundary wrapping -/

/-- C2 (amended): with `wordWrap = false`, `_wrap_text` slices `text` into
chunks of exactly `maxWidth` *characters* (the last chunk may be shorter),
so every returned line has at most `maxWidth` characters and the
concatenation of the lines reproduces `text` exactly.  (The original
claim's bound on *display width* fails for wide characters, see
`c2_counterexample`.) -/
theorem c2_char_wrap_amended (text : List Char) (maxWidth : Int)
    (h : 0 < maxWidth) :
    (wrapText text maxWidth false).flatten = text ∧
    (∀ l ∈ wrapText text maxWidth false, (l.length : Int) ≤ maxWidth) ∧
    (∀ l ∈ (wrapText text maxWidth false).dropLast,
      (l.length : Int) = maxWidth) := by
  have hw : 1 ≤ maxWidth.toNat := by omega
  have hcast : (maxWidth.toNat : Int) = maxWidth := Int.toNat_of_nonneg (by omega)
  by_cases ht : text = []
  · subst ht
    simp [wrapText]
  · have hwrap : wrapText text maxWidth false = chunksBy maxWidth.toNat text := by
      rw [wrapText, if_neg (by push_neg; exact ⟨ht, by omega⟩)]
      rfl
    rw [hwrap]
    refine ⟨chunksBy_flatten hw text, ?_, ?_⟩
    · intro l hl
      have := chunksBy_mem_length hl
      omega
    · intro l hl
      have := chunksBy_dropLast_length hw l hl
      omega

/-- C2 (counterexample): at `text = "Ａ"` (one fullwidth character),
`maxWidth = 1`, character wrapping returns the single line `"Ａ"`, whose
display width is `2 > 1` — refuting the claim that every returned line
has display width at most `maxWidth`. -/
theorem c2_counterexample :
    wrapText ['Ａ'] 1 false = [['Ａ']] ∧ wcswidth ['Ａ'] = 2 := by decide

/-- Witness for `c2_char_wrap_amended` at `text = "abcde"`, `maxWidth = 2`. -/
theorem c2_witness :
    (wrapText "abcde".data 2 false).flatten = "abcde".data ∧
    (∀ l ∈ wrapText "abcde".data 2 false, (l.length : Int) ≤ 2) ∧
    (∀ l ∈ (wrapText "abcde".data 2 false).dropLast, (l.length : Int) = 2) :=
  c2_char_wrap_amended "abcde".data 2 (by decide)

/-! ## C1: word-boundary wrapping -/

theorem wcswidth_ge_neg_one (l : List Char) : -1 ≤ wcswidth l := by
  rcases wcswidth_nonneg_or l with h | h <;> omega

theorem wcwidthChar_space : wcwidthChar ' ' = 1 := by decide

theorem getLastD_mem :
    ∀ (l : List (List Char)) (d : List Char), l ≠ [] → l.getLastD d ∈ l := by
  intro l
  induction l with
  | nil => intro d h; exact absurd rfl h
  | cons x xs ih =>
    intro d _
    cases xs with
    | nil => simp [List.getLastD]
    | cons y ys =>
      rw [List.getLastD_cons]
      exact List.mem_cons_of_mem x (ih x (by simp))

theorem dropLast_concat_getLastD :
    ∀ (l : List (List Char)) (d : List Char), l ≠ [] →
      l.dropLast ++ [l.getLastD d] = l := by
  intro l
  induction l with
  | nil => intro d h; exact absurd rfl h
  | cons x xs ih =>
    intro d _
    cases xs with
    | nil => simp [List.getLastD]
    | cons y ys =>
      rw [List.getLastD_cons, List.dropLast_cons₂, List.cons_append,
        ih x (by simp)]

theorem wordsGo_mem_ne_nil :
    ∀ (f : Nat) (s w : List Char), w ∈ wordsGo f s → w ≠ [] := by
  intro f
  induction f with
  | zero => intro s w h; simp [wordsGo] at h
  | succ n ih =>
    intro s w h
    cases s with
    | nil => simp [wordsGo] at h
    | cons c cs =>
      by_cases hsp : isPySpace c
      · rw [wordsGo, if_pos hsp] at h
        exact ih _ _ h
      · rw [wordsGo, if_neg hsp] at h
        rcases List.mem_cons.mp h with h | h
        · subst h; simp
        · exact ih _ _ h

theorem wordsGo_mem_subset :
    ∀ (f : Nat) (s w : List Char), w ∈ wordsGo f s → ∀ c ∈ w, c ∈ s := by
  intro f
  induction f with
  | zero => intro s w h; simp [wordsGo] at h
  | succ n ih =>
    intro s w h c hc
    cases s with
    | nil => simp [wordsGo] at h
    | cons x xs =>
      by_cases hsp : isPySpace x
      · rw [wordsGo, if_pos hsp] at h
        exact List.mem_cons_of_mem x (ih _ _ h c hc)
      · rw [wordsGo, if_neg hsp] at h
        rcases List.mem_cons.mp h with h | h
        · subst h
          rcases List.mem_cons.mp hc with hc | hc
          · subst hc; simp
          · exact List.mem_cons_of_mem x (List.takeWhile_subset _ hc)
        · exact List.mem_cons_of_mem x
            (List.dropWhile_subset _ (ih _ _ h c hc))

theorem wordsGo_mem_nospace :
    ∀ (f : Nat) (s w : List Char), w ∈ wordsGo f s →
      ∀ c ∈ w, isPySpace c = false := by
  intro f
  induction f with
  | zero => intro s w h; simp [wordsGo] at h
  | succ n ih =>
    intro s w h c hc
    cases s with
    | nil => simp [wordsGo] at h
    | cons x xs =>
      by_cases hsp : isPySpace x
      · rw [wordsGo, if_pos hsp] at h
        exact ih _ _ h c hc
      · rw [wordsGo, if_neg hsp] at h
        rcases List.mem_cons.mp h with h | h
        · subst h
          rcases List.mem_cons.mp hc with hc | hc
          · subst hc; simpa using hsp
          · simpa using List.mem_takeWhile_imp hc
        · exact ih _ _ h c hc

theorem wordsOf_mem_ne_nil {s w : List Char} (h : w ∈ wordsOf s) : w ≠ [] :=
  wordsGo_mem_ne_nil s.length s w h

theorem wordsOf_mem_subset {s w : List Char} (h : w ∈ wordsOf s) :
    ∀ c ∈ w, c ∈ s :=
  wordsGo_mem_subset s.length s w h

theorem wordsOf_mem_nospace {s w : List Char} (h : w ∈ wordsOf s) :
    ∀ c ∈ w, isPySpace c = false :=
  wordsGo_mem_nospace s.length s w h

theorem intercalate_cons_cons (sep x y : List Char) (l : List (List Char)) :
    List.intercalate sep (x :: y :: l) = x ++ sep ++ List.intercalate sep (y :: l) := by
  simp [List.intercalate, List.append_assoc]

theorem intercalate_cons_of_ne_nil (sep x : List Char) {l : List (List Char)}
    (h : l ≠ []) :
    List.intercalate sep (x :: l) = x ++ sep ++ List.intercalate sep l := by
  cases l with
  | nil => exact absurd rfl h
  | cons y ys => exact intercalate_cons_cons sep x y ys

/-- Preservation of the word-wrap loop invariant by one loop iteration. -/
theorem wrapStep_inv {maxWidth : Int} {W : List (List Char)} (hmw : 1 ≤ maxWidth)
    {st : WrapSt} {word : List Char} (hwW : word ∈ W) (hne : word ≠ [])
    (hinv : wrapInv maxWidth W st) :
    wrapInv maxWidth W (wrapStep maxWidth st word) := by
  obtain ⟨h0, hm1, hcur, hlines⟩ := hinv
  have hwge : -1 ≤ wcswidth word := wcswidth_ge_neg_one word
  have hflush : ∀ l ∈ (if st.line = [] then st.lines else st.lines ++ [st.line]),
      goodLine maxWidth W l := by
    intro l hl
    by_cases hemp : st.line = []
    · rw [if_pos hemp] at hl; exact hlines l hl
    · rw [if_neg hemp] at hl
      rcases List.mem_append.mp hl with hl | hl
      · exact hlines l hl
      · have hll : l = st.line := by simpa using hl
        subst hll
        obtain ⟨hwid, hbud⟩ := hcur hemp
        rcases hbud with hbud | hbud
        · rcases hwid with hwid | hwid
          · exact Or.inl (by omega)
          · exact Or.inl (by omega)
        · exact Or.inr hbud
  unfold wrapStep
  by_cases hemp : st.line = []
  · have hw0 : st.width = 0 := h0 hemp
    rw [if_pos hemp]
    by_cases hfit : st.width + 0 + wcswidth word ≤ maxWidth
    · rw [if_pos hfit, if_pos hemp]
      dsimp only [wrapInv]
      refine ⟨fun h => absurd h hne, by omega,
        fun _ => ⟨Or.inl (by omega), Or.inl (by omega)⟩, hlines⟩
    · rw [if_neg hfit]
      have hbig : maxWidth < wcswidth word := by omega
      rw [if_pos hbig]
      have hcs : chunksBy maxWidth.toNat word ≠ [] := chunksBy_ne_nil hne
      have hlast : (chunksBy maxWidth.toNat word).getLastD [] ∈
          chunksBy maxWidth.toNat word := getLastD_mem _ _ hcs
      have hlastne : (chunksBy maxWidth.toNat word).getLastD [] ≠ [] :=
        chunksBy_mem_ne_nil (by omega) hlast
      dsimp only [wrapInv]
      refine ⟨fun h => absurd h hlastne, wcswidth_ge_neg_one _,
        fun _ => ⟨Or.inl rfl, Or.inr ⟨word, hwW, hbig, hlast⟩⟩, ?_⟩
      intro l hl
      rcases List.mem_append.mp hl with hl | hl
      · rw [if_pos hemp] at hl
        exact hlines l hl
      · exact Or.inr ⟨word, hwW, hbig, List.dropLast_subset _ hl⟩
  · rw [if_neg hemp]
    by_cases hfit : st.width + 1 + wcswidth word ≤ maxWidth
    · rw [if_pos hfit, if_neg hemp]
      dsimp only [wrapInv]
      refine ⟨fun h => absurd h (by simp [hemp]), by omega, fun _ => ⟨?_, Or.inl (by omega)⟩,
        hlines⟩
      -- display width of the extended line
      obtain ⟨hwid, _⟩ := hcur hemp
      have happ := wcswidth_append st.line (' ' :: word)
      have hsp : wcswidth (' ' :: word) =
          if wcswidth word < 0 then -1 else 1 + wcswidth word := by
        rw [wcswidth_cons, wcwidthChar_space]
        rw [if_neg (by omega)]
      by_cases hlneg : wcswidth st.line < 0
      · right
        rw [happ, if_pos (Or.inl hlneg)]
      · by_cases hwneg : wcswidth word < 0
        · right
          rw [happ, if_pos (Or.inr (by rw [hsp, if_pos hwneg]; omega))]
        · rcases hwid with hwid | hwid
          · left
            rw [happ, hsp, if_neg hwneg]
            rw [if_neg (by push_neg; exact ⟨by omega, by omega⟩)]
            omega
          · exact absurd hwid (by omega)
    · rw [if_neg hfit]
      by_cases hbig : maxWidth < wcswidth word
      · rw [if_pos hbig]
        have hcs : chunksBy maxWidth.toNat word ≠ [] := chunksBy_ne_nil hne
        have hlast : (chunksBy maxWidth.toNat word).getLastD [] ∈
            chunksBy maxWidth.toNat word := getLastD_mem _ _ hcs
        have hlastne : (chunksBy maxWidth.toNat word).getLastD [] ≠ [] :=
          chunksBy_mem_ne_nil (by omega) hlast
        dsimp only [wrapInv]
        refine ⟨fun h => absurd h hlastne, wcswidth_ge_neg_one _,
          fun _ => ⟨Or.inl rfl, Or.inr ⟨word, hwW, hbig, hlast⟩⟩, ?_⟩
        intro l hl
        rcases List.mem_append.mp hl with hl | hl
        · exact hflush l hl
        · exact Or.inr ⟨word, hwW, hbig, List.dropLast_subset _ hl⟩
      · rw [if_neg hbig]
        dsimp only [wrapInv]
        exact ⟨fun h => absurd h hne, by omega,
          fun _ => ⟨Or.inl rfl, Or.inl (by omega)⟩, hflush⟩

/-- The loop invariant holds at the end of the word loop. -/
theorem wrapFold_inv {maxWidth : Int} {W : List (List Char)} (hmw : 1 ≤ maxWidth) :
    ∀ (ws : List (List Char)) (st : WrapSt),
      (∀ w ∈ ws, w ∈ W) → (∀ w ∈ ws, w ≠ []) → wrapInv maxWidth W st →
      wrapInv maxWidth W (ws.foldl (wrapStep maxWidth) st) := by
  intro ws
  induction ws with
  | nil => intro st _ _ h; exact h
  | cons w ws ih =>
    intro st hW hne hinv
    exact ih _ (fun x hx => hW x (by simp [hx])) (fun x hx => hne x (by simp [hx]))
      (wrapStep_inv hmw (hW w (by simp)) (hne w (by simp)) hinv)

theorem intercalate_glue (xs : List (List Char)) (a b : List Char)
    (r : List (List Char)) :
    List.intercalate [' '] (xs ++ (a ++ ' ' :: b) :: r) =
    List.intercalate [' '] (xs ++ a :: b :: r) := by
  induction xs with
  | nil =>
    cases r with
    | nil => simp [List.intercalate]
    | cons c cr =>
      rw [List.nil_append, List.nil_append, intercalate_cons_cons,
        intercalate_cons_cons, intercalate_cons_cons]
      simp [List.append_assoc]
  | cons x xs ih =>
    rw [List.cons_append, List.cons_append,
      intercalate_cons_of_ne_nil _ _ (by simp),
      intercalate_cons_of_ne_nil _ _ (by simp), ih]

/-- One loop iteration appends `chunkOrSelf` of the word to the stream of
emitted lines, up to re-joining with single spaces. -/
theorem wrapStep_flat {maxWidth : Int} {W : List (List Char)} (hmw : 1 ≤ maxWidth)
    {st : WrapSt} {word : List Char} (hne : word ≠ [])
    (hinv : wrapInv maxWidth W st) (rest : List (List Char)) :
    List.intercalate [' '] (emitState (wrapStep maxWidth st word) ++ rest) =
    List.intercalate [' ']
      (emitState st ++ (chunkOrSelf maxWidth word ++ rest)) := by
  obtain ⟨h0, hm1, _, _⟩ := hinv
  unfold wrapStep
  by_cases hemp : st.line = []
  · have hw0 : st.width = 0 := h0 hemp
    rw [if_pos hemp]
    by_cases hfit : st.width + 0 + wcswidth word ≤ maxWidth
    · rw [if_pos hfit, if_pos hemp]
      have hco : chunkOrSelf maxWidth word = [word] := by
        rw [chunkOrSelf, if_neg (by omega)]
      rw [hco]
      simp [emitState, hemp, hne, List.append_assoc]
    · rw [if_neg hfit]
      have hbig : maxWidth < wcswidth word := by omega
      rw [if_pos hbig]
      have hcs : chunksBy maxWidth.toNat word ≠ [] := chunksBy_ne_nil hne
      have hlast : (chunksBy maxWidth.toNat word).getLastD [] ∈
          chunksBy maxWidth.toNat word := getLastD_mem _ _ hcs
      have hlastne : (chunksBy maxWidth.toNat word).getLastD [] ≠ [] :=
        chunksBy_mem_ne_nil (by omega) hlast
      have hco : chunkOrSelf maxWidth word = chunksBy maxWidth.toNat word := by
        rw [chunkOrSelf, if_pos hbig]
      rw [hco]
      have hconcat := dropLast_concat_getLastD (chunksBy maxWidth.toNat word) [] hcs
      simp only [emitState, if_pos hemp, if_neg hlastne, List.append_nil,
        List.append_assoc]
      rw [← List.append_assoc (chunksBy maxWidth.toNat word).dropLast, hconcat]
  · rw [if_neg hemp]
    by_cases hfit : st.width + 1 + wcswidth word ≤ maxWidth
    · rw [if_pos hfit, if_neg hemp]
      have hco : chunkOrSelf maxWidth word = [word] := by
        rw [chunkOrSelf, if_neg (by omega)]
      rw [hco]
      have hnewne : st.line ++ ' ' :: word ≠ [] := by simp [hemp]
      simp only [emitState, if_neg hemp, if_neg hnewne]
      rw [List.append_assoc, List.append_assoc]
      exact intercalate_glue st.lines st.line word rest
    · rw [if_neg hfit]
      by_cases hbig : maxWidth < wcswidth word
      · rw [if_pos hbig]
        have hcs : chunksBy maxWidth.toNat word ≠ [] := chunksBy_ne_nil hne
        have hlast : (chunksBy maxWidth.toNat word).getLastD [] ∈
            chunksBy maxWidth.toNat word := getLastD_mem _ _ hcs
        have hlastne : (chunksBy maxWidth.toNat word).getLastD [] ≠ [] :=
          chunksBy_mem_ne_nil (by omega) hlast
        have hco : chunkOrSelf maxWidth word = chunksBy maxWidth.toNat word := by
          rw [chunkOrSelf, if_pos hbig]
        rw [hco]
        have hconcat := dropLast_concat_getLastD (chunksBy maxWidth.toNat word) [] hcs
        simp only [emitState, if_neg hemp, if_neg hlastne, List.append_assoc]
        rw [← List.append_assoc (chunksBy maxWidth.toNat word).dropLast, hconcat]
      · rw [if_neg hbig]
        have hco : chunkOrSelf maxWidth word = [word] := by
          rw [chunkOrSelf, if_neg hbig]
        rw [hco]
        simp [emitState, hemp, hne, List.append_assoc]

/-- Running the whole word loop appends the `chunkOrSelf` image of the
words, up to re-joining with single spaces. -/
theorem wrapFold_flat {maxWidth : Int} {W : List (List Char)} (hmw : 1 ≤ maxWidth) :
    ∀ (ws : List (List Char)) (st : WrapSt),
      (∀ w ∈ ws, w ∈ W) → (∀ w ∈ ws, w ≠ []) → wrapInv maxWidth W st →
      ∀ rest,
        List.intercalate [' '] (emitState (ws.foldl (wrapStep maxWidth) st) ++ rest) =
        List.intercalate [' ']
          (emitState st ++ (ws.flatMap (chunkOrSelf maxWidth) ++ rest)) := by
  intro ws
  induction ws with
  | nil => intro st _ _ _ rest; simp
  | cons w ws ih =>
    intro st hW hne hinv rest
    rw [List.foldl_cons]
    rw [ih _ (fun x hx => hW x (by simp [hx])) (fun x hx => hne x (by simp [hx]))
      (wrapStep_inv hmw (hW w (by simp)) (hne w (by simp)) hinv)]
    rw [wrapStep_flat hmw (hne w (by simp)) hinv
      (ws.flatMap (chunkOrSelf maxWidth) ++ rest)]
    simp [List.append_assoc]

theorem wrapInv_init {maxWidth : Int} {W : List (List Char)} :
    wrapInv maxWidth W ⟨[], [], 0⟩ :=
  ⟨fun _ => rfl, by norm_num, fun h => absurd rfl h, by simp⟩

/-- Every line of word-boundary wrapping is within budget or is a chunk of
an over-long word. -/
theorem wrapText_goodLine (text : List Char) (maxWidth : Int) (h : 0 < maxWidth) :
    ∀ l ∈ wrapText text maxWidth true, goodLine maxWidth (wordsOf text) l := by
  intro l hl
  by_cases ht : text = []
  · subst ht; simp [wrapText] at hl
  · have hcond : ¬(text = [] ∨ maxWidth ≤ 0) := by push_neg; exact ⟨ht, by omega⟩
    have hwrap : wrapText text maxWidth true =
        emitState ((wordsOf text).foldl (wrapStep maxWidth) ⟨[], [], 0⟩) := by
      rw [wrapText, if_neg hcond]
      rfl
    rw [hwrap] at hl
    have hmw : (1 : Int) ≤ maxWidth := by omega
    obtain ⟨h0, hm1, hcur, hlines⟩ :=
      wrapFold_inv hmw (wordsOf text) ⟨[], [], 0⟩ (fun _ hw => hw)
        (fun _ hw => wordsOf_mem_ne_nil hw) wrapInv_init
    rcases List.mem_append.mp hl with hl' | hl'
    · exact hlines l hl'
    · by_cases hemp :
        ((wordsOf text).foldl (wrapStep maxWidth) ⟨[], [], 0⟩).line = []
      · rw [if_pos hemp] at hl'
        simp at hl'
      · rw [if_neg hemp] at hl'
        have hll : l = ((wordsOf text).foldl (wrapStep maxWidth) ⟨[], [], 0⟩).line := by
          simpa using hl'
        subst hll
        obtain ⟨hwid, hbud⟩ := hcur hemp
        rcases hbud with hbud | hbud
        · rcases hwid with hwid | hwid
          · exact Or.inl (by omega)
          · exact Or.inl (by omega)
        · exact Or.inr hbud

/-- Word wrapping emits exactly the words (over-long ones replaced by
their chunks), in order, re-joined with single spaces. -/
theorem wrapText_flat (text : List Char) (maxWidth : Int) (h : 0 < maxWidth) :
    List.intercalate [' '] (wrapText text maxWidth true) =
    List.intercalate [' '] ((wordsOf text).flatMap (chunkOrSelf maxWidth)) := by
  by_cases ht : text = []
  · subst ht
    simp [wrapText, wordsOf, wordsGo]
  · have hcond : ¬(text = [] ∨ maxWidth ≤ 0) := by push_neg; exact ⟨ht, by omega⟩
    have hwrap : wrapText text maxWidth true =
        emitState ((wordsOf text).foldl (wrapStep maxWidth) ⟨[], [], 0⟩) := by
      rw [wrapText, if_neg hcond]
      rfl
    rw [hwrap]
    have hmw : (1 : Int) ≤ maxWidth := by omega
    have := wrapFold_flat hmw (wordsOf text) ⟨[], [], 0⟩ (fun _ hw => hw)
      (fun _ hw => wordsOf_mem_ne_nil hw) wrapInv_init []
    simpa [emitState] using this

/-- C1: with `wordWrap = true` and `maxWidth > 0`, every returned line has
display width at most `maxWidth` unless it is a character chunk of a
whitespace-delimited word whose own display width exceeds `maxWidth`; and
the words of `text` appear in the output in order with none dropped —
re-joining the lines with single spaces yields exactly the word sequence
of `text`, with each over-long word replaced by its chunk sequence. -/
theorem c1_word_wrap_sound (text : List Char) (maxWidth : Int) (h : 0 < maxWidth) :
    (∀ l ∈ wrapText text maxWidth true,
        wcswidth l ≤ maxWidth ∨ chunkLineOf maxWidth (wordsOf text) l) ∧
    List.intercalate [' '] (wrapText text maxWidth true) =
      List.intercalate [' '] ((wordsOf text).flatMap (chunkOrSelf maxWidth)) :=
  ⟨fun l hl => wrapText_goodLine text maxWidth h l hl, wrapText_flat text maxWidth h⟩

/-- Witness for `c1_word_wrap_sound` at `text = "abcdefghij xy"`,
`maxWidth = 4` (the first word is over-long and gets chunked). -/
theorem c1_witness :
    (∀ l ∈ wrapText "abcdefghij xy".data 4 true,
        wcswidth l ≤ 4 ∨ chunkLineOf 4 (wordsOf "abcdefghij xy".data) l) ∧
    List.intercalate [' '] (wrapText "abcdefghij xy".data 4 true) =
      List.intercalate [' ']
        ((wordsOf "abcdefghij xy".data).flatMap (chunkOrSelf 4)) :=
  c1_word_wrap_sound "abcdefghij xy".data 4 (by norm_num)

/-! ## C10: whitespace collapsing -/

theorem flatMap_chunkOrSelf_eq_self {maxWidth : Int} :
    ∀ (ws : List (List Char)), (∀ w ∈ ws, wcswidth w ≤ maxWidth) →
      ws.flatMap (chunkOrSelf maxWidth) = ws := by
  intro ws
  induction ws with
  | nil => intro _; rfl
  | cons w ws ih =>
    intro hws
    rw [List.flatMap_cons, chunkOrSelf, if_neg (by have := hws w (by simp); omega),
      ih fun x hx => hws x (by simp [hx])]
    rfl

/-- C10: when every whitespace-delimited word of `text` fits in `maxWidth`,
joining the lines of `wrap(text, maxWidth, wordWrap=true)` with single
spaces equals the words of `text` joined with single spaces — word
wrapping collapses whitespace runs to single spaces and drops
leading/trailing whitespace. -/
theorem c10_whitespace_collapse (text : List Char) (maxWidth : Int)
    (h : 0 < maxWidth)
    (hwords : ∀ w ∈ wordsOf text, wcswidth w ≤ maxWidth) :
    List.intercalate [' '] (wrapText text maxWidth true) =
      List.intercalate [' '] (wordsOf text) := by
  rw [wrapText_flat text maxWidth h, flatMap_chunkOrSelf_eq_self (wordsOf text) hwords]

/-- Witness for `c10_whitespace_collapse` at `text = "a \n\t b  c"`,
`maxWidth = 3`: the joined output is `"a b c"`, not the original text. -/
theorem c10_witness :
    List.intercalate [' '] (wrapText "a \n\t b  c".data 3 true) =
      List.intercalate [' '] (wordsOf "a \n\t b  c".data) :=
  c10_whitespace_collapse "a \n\t b  c".data 3 (by norm_num) (by decide)

/-! ## C4: the padding width formula -/

/-- C4: the computed padding width is
`max(minPaddingWithDecoration, totalWidth − sum of the other widths)`, so
it is never below the configured minimum padding width; and when the other
fields' combined widths exceed `totalWidth` (and the configured minimum is
non-negative), the block total exceeds `totalWidth`. -/
theorem c4_padding_width (cfg : LogC) (message reason status : List Char) :
    (calculateWidths cfg message reason status).padding =
      max (cfg.padding.min_width + (cfg.padding.leading_char.length : Int) +
            (cfg.padding.closing_char.length : Int))
        (cfg.total_width -
          ((calculateWidths cfg message reason status).message +
            (calculateWidths cfg message reason status).reason +
            (calculateWidths cfg message reason status).status)) ∧
    cfg.padding.min_width ≤ (calculateWidths cfg message reason status).padding ∧
    (0 ≤ cfg.padding.min_width →
      cfg.total_width <
        (calculateWidths cfg message reason status).message +
          (calculateWidths cfg message reason status).reason +
          (calculateWidths cfg message reason status).status →
      cfg.total_width <
        (calculateWidths cfg message reason status).message +
          (calculateWidths cfg message reason status).reason +
          (calculateWidths cfg message reason status).status +
          (calculateWidths cfg message reason status).padding) := by
  refine ⟨rfl, ?_, ?_⟩
  · dsimp only [calculateWidths]
    have h1 : (0 : Int) ≤ (cfg.padding.leading_char.length : Int) := by positivity
    have h2 : (0 : Int) ≤ (cfg.padding.closing_char.length : Int) := by positivity
    have h3 := le_max_left
      (cfg.padding.min_width + (cfg.padding.leading_char.length : Int) +
        (cfg.padding.closing_char.length : Int))
      (cfg.total_width -
        (clampWidth (wcswidth message + (cfg.message.leading_char.length : Int) +
            (cfg.message.closing_char.length : Int)) cfg.message.max_width +
          clampWidth (if reason ≠ [] then
              wcswidth reason + (cfg.reason.leading_char.length : Int) +
                (cfg.reason.closing_char.length : Int)
            else 0) cfg.reason.max_width +
          clampWidth (if status ≠ [] then
              wcswidth status + (cfg.status.leading_char.length : Int) +
                (cfg.status.closing_char.length : Int)
            else 0) cfg.status.max_width))
    omega
  · intro hmin hused
    dsimp only [calculateWidths] at *
    have h1 : (0 : Int) ≤ (cfg.padding.leading_char.length : Int) := by positivity
    have h2 : (0 : Int) ≤ (cfg.padding.closing_char.length : Int) := by positivity
    have h3 := le_max_left
      (cfg.padding.min_width + (cfg.padding.leading_char.length : Int) +
        (cfg.padding.closing_char.length : Int))
      (cfg.total_width -
        (clampWidth (wcswidth message + (cfg.message.leading_char.length : Int) +
            (cfg.message.closing_char.length : Int)) cfg.message.max_width +
          clampWidth (if reason ≠ [] then
              wcswidth reason + (cfg.reason.leading_char.length : Int) +
                (cfg.reason.closing_char.length : Int)
            else 0) cfg.reason.max_width +
          clampWidth (if status ≠ [] then
              wcswidth status + (cfg.status.leading_char.length : Int) +
                (cfg.status.closing_char.length : Int)
            else 0) cfg.status.max_width))
    omega

/-- Witness for `c4_padding_width` at the default configuration and inputs
whose clamped widths (`55 + 22 + 10 = 87`) exceed `totalWidth = 80`. -/
theorem c4_witness :
    0 ≤ defaultLogC.padding.min_width ∧
    defaultLogC.total_width <
      (calculateWidths defaultLogC (List.replicate 60 'a') (List.replicate 30 'b')
          (List.replicate 15 'c')).message +
        (calculateWidths defaultLogC (List.replicate 60 'a') (List.replicate 30 'b')
          (List.replicate 15 'c')).reason +
        (calculateWidths defaultLogC (List.replicate 60 'a') (List.replicate 30 'b')
          (List.replicate 15 'c')).status ∧
    defaultLogC.total_width <
      (calculateWidths defaultLogC (List.replicate 60 'a') (List.replicate 30 'b')
          (List.replicate 15 'c')).message +
        (calculateWidths defaultLogC (List.replicate 60 'a') (List.replicate 30 'b')
          (List.replicate 15 'c')).reason +
        (calculateWidths defaultLogC (List.replicate 60 'a') (List.replicate 30 'b')
          (List.replicate 15 'c')).status +
        (calculateWidths defaultLogC (List.replicate 60 'a') (List.replicate 30 'b')
          (List.replicate 15 'c')).padding :=
  ⟨by decide, by decide,
    (c4_padding_width defaultLogC (List.replicate 60 'a') (List.replicate 30 'b')
        (List.replicate 15 'c')).2.2 (by decide) (by decide)⟩

/-! ## C7: line count and the empty-message edge case -/

theorem formatLines_length (cfg : LogC) (message reason status : List Char) :
    (formatLines cfg message reason status).length =
      lineCount cfg message reason status := by
  simp [formatLines]

/-- C7 counterexample: at a configuration whose message field carries
decoration (leading `[`, closing `]`), an empty message has computed
message width 2, yet the message column of output line 0 is the empty
string — `_format_field` returns `formatted_lines or ['']` — and not an
all-blank column of the field's width. -/
theorem c7_counterexample :
    (calculateWidths decoratedLogC [] ['r'] ['O', 'K']).message = 2 ∧
    msgPiece decoratedLogC [] ['r'] ['O', 'K'] 0 = [] ∧
    msgPiece decoratedLogC [] ['r'] ['O', 'K'] 0 ≠
      pyRepeatChar ' '
        (calculateWidths decoratedLogC [] ['r'] ['O', 'K']).message := by
  decide

/-- C7 (amended): `format_line` is the newline join of exactly
`max(1, line counts of the message, reason and status fields)` composed
lines — in particular at least one line even for an empty message; but
with an empty message (and a wrapping message field) `_format_field`
returns the single unpadded empty line (`formatted_lines or ['']`), so
line 0's message column is the styled empty string — not a blank run of
the field's computed width — while every later line's message column is
the styled blank run of that width.  (At the default configuration the
empty message's computed width is 0, where the two coincide.) -/
theorem c7_line_count_amended (cfg : LogC) (message reason status : List Char) :
    formatLine cfg message reason status =
      List.intercalate ['\n'] (formatLines cfg message reason status) ∧
    (formatLines cfg message reason status).length =
      lineCount cfg message reason status ∧
    1 ≤ (formatLines cfg message reason status).length ∧
    (message = [] → cfg.message.wrap = true →
      formatField cfg message FName.message
          (calculateWidths cfg message reason status).message = [[]] ∧
      ∀ i : Nat, msgPiece cfg message reason status i =
        applyStyle
          (if i = 0 then []
           else pyRepeatChar ' ' (calculateWidths cfg message reason status).message)
          cfg.message.color cfg.message.style) := by
  refine ⟨rfl, formatLines_length cfg message reason status, ?_, ?_⟩
  · rw [formatLines_length]
    exact le_trans (Nat.le_max_right _ 1) le_rfl
  · intro hm hwrap
    subst hm
    have hFF : formatField cfg [] FName.message
        (calculateWidths cfg [] reason status).message = [[]] := by
      simp [formatField, fieldOf, hwrap, wrapText]
    refine ⟨hFF, ?_⟩
    intro i
    cases i with
    | zero => simp [msgPiece, hFF]
    | succ n => simp [msgPiece, hFF]

/-! ## C9: non-printable input -/

/-- C9 (counterexample): for a message consisting of the single control
character BEL, the width computation yields `-1` — a negative value — so
the claim that width computation always yields a non-negative value fails
on the code (`wcswidth` returns `-1` for strings containing non-printable
characters, and `_calculate_widths` propagates it). -/
theorem c9_counterexample :
    wcswidth [Char.ofNat 7] = -1 ∧
    (calculateWidths defaultLogC [Char.ofNat 7] [] []).message = -1 := by decide

/-- C9 (amended): the render pipeline is total on all inputs, including
non-printable characters: it always produces at least one output line, and
at the failing input it returns a concrete complete string (the negative
width flows through Python's tolerant slicing and repetition primitives);
but the computed width of such input is `-1`, not a non-negative value. -/
theorem c9_never_raises_amended :
    (∀ (cfg : LogC) (message reason status : List Char),
      1 ≤ (formatLines cfg message reason status).length) ∧
    formatLine defaultLogC [Char.ofNat 7] [] [] =
      ' ' :: (List.replicate 79 '.' ++ [' ']) := by
  constructor
  · intro cfg message reason status
    rw [formatLines_length]
    exact le_trans (Nat.le_max_right _ 1) le_rfl
  · decide

/-! ## C6: status badge and column absence -/

theorem formatField_ne_nil (cfg : LogC) (content : List Char) (name : FName)
    (width : Int) : formatField cfg content name width ≠ [] := by
  simp only [formatField]
  split_ifs <;> simp_all

theorem statusPieces_later (cfg : LogC) (message reason status : List Char)
    {i : Nat} (hs : status ≠ []) (hi : 0 < i) :
    statusPieces cfg message reason status i =
      [pyRepeatChar ' ' (calculateWidths cfg message reason status).status] := by
  simp only [statusPieces]
  rw [if_neg (fun hcon => (by omega : ¬i = 0) hcon.2), if_pos ⟨hs, hi⟩]

theorem statusPieces_zero (cfg : LogC) (message reason status : List Char)
    (hs : status ≠ []) (hw : 0 < (calculateWidths cfg message reason status).status) :
    statusPieces cfg message reason status 0 =
      [applyStyle
        ((formatField cfg status FName.status
            (calculateWidths cfg message reason status).status).headD [])
        cfg.status.color cfg.status.style] := by
  have hin : (if status ≠ [] ∧ 0 < (calculateWidths cfg message reason status).status
      then formatField cfg status FName.status
        (calculateWidths cfg message reason status).status
      else []) =
      formatField cfg status FName.status
        (calculateWidths cfg message reason status).status := if_pos ⟨hs, hw⟩
  simp only [statusPieces, hin]
  rw [if_pos ⟨formatField_ne_nil cfg status FName.status _, trivial⟩]

theorem reasonPieces_absent (cfg : LogC) (message status : List Char) (i : Nat) :
    reasonPieces cfg message [] status i = [] := by
  simp [reasonPieces]

theorem statusPieces_absent (cfg : LogC) (message reason : List Char) (i : Nat) :
    statusPieces cfg message reason [] i = [] := by
  simp [statusPieces]

/-- C6: with a non-empty status of positive computed width, the status
column piece of output line 0 is the styled status content and on every
later line it is a blank run of exactly the status field's computed width
(both are the last piece of the line); a `None`/empty reason (resp.
status) contributes no column piece at all — each line consists of the
message and padding pieces plus only the other optional column. -/
theorem c6_status_only_first_line (cfg : LogC) (message reason status : List Char) :
    (status ≠ [] → 0 < (calculateWidths cfg message reason status).status →
      (∀ i : Nat, 0 < i →
        (linePieces cfg message reason status i).getLast? =
          some (pyRepeatChar ' ' (calculateWidths cfg message reason status).status)) ∧
      (linePieces cfg message reason status 0).getLast? =
        some (applyStyle
          ((formatField cfg status FName.status
              (calculateWidths cfg message reason status).status).headD [])
          cfg.status.color cfg.status.style)) ∧
    (reason = [] → ∀ i : Nat,
      linePieces cfg message reason status i =
        [msgPiece cfg message reason status i,
          padPiece cfg message reason status] ++
          statusPieces cfg message reason status i) ∧
    (status = [] → ∀ i : Nat,
      linePieces cfg message reason status i =
        [msgPiece cfg message reason status i,
          padPiece cfg message reason status] ++
          reasonPieces cfg message reason status i) := by
  refine ⟨fun hs hw => ⟨?_, ?_⟩, ?_, ?_⟩
  · intro i hi
    rw [linePieces, statusPieces_later cfg message reason status hs hi,
      List.getLast?_concat]
  · rw [linePieces, statusPieces_zero cfg message reason status hs hw,
      List.getLast?_concat]
  · intro hr i
    subst hr
    rw [linePieces, reasonPieces_absent]
    simp
  · intro hs i
    subst hs
    rw [linePieces, statusPieces_absent]
    simp

/-- Witness for `c6_status_only_first_line`: concrete render with
`status = "OK"`; the status column is blank on line 1 and the reason
column is absent when the reason is empty. -/
theorem c6_witness :
    "OK".data ≠ [] ∧
    0 < (calculateWidths defaultLogC "m".data "r".data "OK".data).status ∧
    (linePieces defaultLogC "m".data "r".data "OK".data 1).getLast? =
      some (pyRepeatChar ' '
        (calculateWidths defaultLogC "m".data "r".data "OK".data).status) ∧
    linePieces defaultLogC "m".data [] "OK".data 0 =
      [msgPiece defaultLogC "m".data [] "OK".data 0,
        padPiece defaultLogC "m".data [] "OK".data] ++
        statusPieces defaultLogC "m".data [] "OK".data 0 :=
  ⟨by decide, by decide,
    ((c6_status_only_first_line defaultLogC "m".data "r".data "OK".data).1
      (by decide) (by decide)).1 1 (by decide),
    (c6_status_only_first_line defaultLogC "m".data [] "OK".data).2.1 rfl 0⟩

/-- Witness for `c7_line_count_amended`: the empty-message clause at the
default configuration, lines 0 and 1. -/
theorem c7_witness :
    formatField defaultLogC [] FName.message
        (calculateWidths defaultLogC [] ['r'] ['O', 'K']).message = [[]] ∧
    msgPiece defaultLogC [] ['r'] ['O', 'K'] 1 =
      applyStyle
        (pyRepeatChar ' ' (calculateWidths defaultLogC [] ['r'] ['O', 'K']).message)
        defaultLogC.message.color defaultLogC.message.style := by
  have h := (c7_line_count_amended defaultLogC [] ['r'] ['O', 'K']).2.2.2 rfl rfl
  exact ⟨h.1, by simpa using h.2 1⟩

/-! ## C3/C8: heap-model lemmas -/

theorem derefObj_append_left {h : Heap} (ext : Heap) {r : Nat}
    (hr : r < h.length) : derefObj (h ++ ext) r = derefObj h r := by
  simp only [derefObj]
  exact List.getD_append h ext [] r hr

theorem heapSet_length (h : Heap) (r : Nat) (k : String) (v : AttrVal) :
    (heapSet h r k v).length = h.length := by
  simp [heapSet]

theorem heapSet_getD_ne (h : Heap) {r i : Nat} (k : String) (v : AttrVal)
    (hne : i ≠ r) : derefObj (heapSet h r k v) i = derefObj h i := by
  simp only [heapSet, derefObj, List.getD_eq_getElem?_getD]
  rw [List.getElem?_set_ne (by omega)]

theorem heapSet_getD_self (h : Heap) {r : Nat} (hr : r < h.length)
    (k : String) (v : AttrVal) :
    derefObj (heapSet h r k v) r = assocSet (derefObj h r) k v := by
  simp only [heapSet, derefObj, List.getD_eq_getElem?_getD]
  rw [List.getElem?_set_self (by omega)]
  simp

theorem setAttrsH_length :
    ∀ (attrs : List (String × AttrVal)) (h : Heap) (r : Nat),
      (setAttrsH h r attrs).length = h.length := by
  intro attrs
  induction attrs with
  | nil => intro h r; rfl
  | cons kv attrs ih =>
    intro h r
    have : setAttrsH h r (kv :: attrs) = setAttrsH (heapSet h r kv.1 kv.2) r attrs := rfl
    rw [this, ih, heapSet_length]

theorem setAttrsH_getD_ne :
    ∀ (attrs : List (String × AttrVal)) (h : Heap) {r i : Nat}, i ≠ r →
      derefObj (setAttrsH h r attrs) i = derefObj h i := by
  intro attrs
  induction attrs with
  | nil => intro h r i _; rfl
  | cons kv attrs ih =>
    intro h r i hne
    have : setAttrsH h r (kv :: attrs) = setAttrsH (heapSet h r kv.1 kv.2) r attrs := rfl
    rw [this, ih _ hne, heapSet_getD_ne _ _ _ hne]

theorem setAttrsH_getD_self :
    ∀ (attrs : List (String × AttrVal)) (h : Heap) {r : Nat}, r < h.length →
      derefObj (setAttrsH h r attrs) r =
        attrs.foldl (fun o kv => assocSet o kv.1 kv.2) (derefObj h r) := by
  intro attrs
  induction attrs with
  | nil => intro h r _; rfl
  | cons kv attrs ih =>
    intro h r hr
    have hstep : setAttrsH h r (kv :: attrs) =
        setAttrsH (heapSet h r kv.1 kv.2) r attrs := rfl
    rw [hstep, ih _ (by rw [heapSet_length]; exact hr),
      heapSet_getD_self _ hr]
    rfl

theorem lookupRef_mem {fs : List (String × Nat)} {name : String} {r : Nat}
    (h : lookupRef fs name = some r) : r ∈ fs.map Prod.snd := by
  unfold lookupRef at h
  cases hfind : fs.find? (fun p => p.1 == name) with
  | none => rw [hfind] at h; simp at h
  | some p =>
    rw [hfind] at h
    simp only [Option.some.injEq] at h
    subst h
    exact List.mem_map_of_mem Prod.snd (List.mem_of_find?_eq_some hfind)

theorem applyEntryH_length (fs : List (String × Nat)) (h : Heap)
    (e : String × List (String × AttrVal)) :
    (applyEntryH fs h e).length = h.length := by
  unfold applyEntryH
  cases hl : lookupRef fs e.1 with
  | none => rfl
  | some r => exact setAttrsH_length e.2 h r

theorem applyEntryH_getD_notref (fs : List (String × Nat)) (h : Heap)
    (e : String × List (String × AttrVal)) {i : Nat}
    (hi : ∀ q ∈ fs.map Prod.snd, i ≠ q) :
    derefObj (applyEntryH fs h e) i = derefObj h i := by
  unfold applyEntryH
  cases hl : lookupRef fs e.1 with
  | none => rfl
  | some r => exact setAttrsH_getD_ne e.2 h (hi r (lookupRef_mem hl))

/-- One override entry, read back through the references, acts on the
denoted field values as `assocSetField` (needs distinct references — the
situation after a deep copy). -/
theorem applyEntryH_deref :
    ∀ (fs : List (String × Nat)) (h : Heap) (e : String × List (String × AttrVal)),
      (∀ p ∈ fs, p.2 < h.length) → (fs.map Prod.snd).Nodup →
      fs.map (fun p => (p.1, derefObj (applyEntryH fs h e) p.2)) =
        assocSetField (fs.map (fun p => (p.1, derefObj h p.2))) e.1 e.2 := by
  intro fs
  induction fs with
  | nil => intro h e _ _; rfl
  | cons p fs ih =>
    intro h e hin hnd
    obtain ⟨n, r⟩ := p
    have hnd' : r ∉ fs.map Prod.snd ∧ (fs.map Prod.snd).Nodup :=
      List.nodup_cons.mp (by simpa using hnd)
    by_cases hname : n = e.1
    · have hlook : lookupRef ((n, r) :: fs) e.1 = some r := by
        unfold lookupRef
        rw [List.find?_cons_of_pos _ (by simp [hname])]
      have happ : applyEntryH ((n, r) :: fs) h e = setAttrsH h r e.2 := by
        unfold applyEntryH
        rw [hlook]
      rw [happ]
      simp only [List.map_cons, assocSetField, if_pos hname, List.cons.injEq]
      refine ⟨?_, ?_⟩
      · exact congrArg _ (setAttrsH_getD_self e.2 h (hin (n, r) (by simp)))
      · refine List.map_congr_left ?_
        intro q hq
        have hqr : q.2 ≠ r := by
          intro hcon
          exact hnd'.1 (hcon ▸ List.mem_map_of_mem Prod.snd hq)
        rw [setAttrsH_getD_ne e.2 h hqr]
    · have hlook : lookupRef ((n, r) :: fs) e.1 = lookupRef fs e.1 := by
        unfold lookupRef
        rw [List.find?_cons_of_neg _ (by simp [hname])]
      have happ : applyEntryH ((n, r) :: fs) h e = applyEntryH fs h e := by
        unfold applyEntryH
        rw [hlook]
      rw [happ]
      simp only [List.map_cons, assocSetField, if_neg hname, List.cons.injEq]
      refine ⟨?_, ?_⟩
      · refine congrArg _ (applyEntryH_getD_notref fs h e ?_)
        intro q hq hrq
        subst hrq
        exact hnd'.1 hq
      · exact ih h e (fun q hq => hin q (by simp [hq])) hnd'.2

/-- Running a whole list of override entries: heap length is unchanged,
cells outside the patched fields are unchanged, and the denoted field
values evolve by the value-level fold. -/
theorem foldEntries_spec :
    ∀ (entries : List (String × List (String × AttrVal)))
      (fs : List (String × Nat)) (h : Heap),
      (∀ p ∈ fs, p.2 < h.length) → (fs.map Prod.snd).Nodup →
      (entries.foldl (applyEntryH fs) h).length = h.length ∧
      (∀ i, (∀ q ∈ fs.map Prod.snd, i ≠ q) →
        derefObj (entries.foldl (applyEntryH fs) h) i = derefObj h i) ∧
      fs.map (fun p => (p.1, derefObj (entries.foldl (applyEntryH fs) h) p.2)) =
        entries.foldl (fun fv e => assocSetField fv e.1 e.2)
          (fs.map (fun p => (p.1, derefObj h p.2))) := by
  intro entries
  induction entries with
  | nil => intro fs h _ _; exact ⟨rfl, fun _ _ => rfl, rfl⟩
  | cons e entries ih =>
    intro fs h hin hnd
    have hin1 : ∀ p ∈ fs, p.2 < (applyEntryH fs h e).length := by
      intro p hp
      rw [applyEntryH_length]
      exact hin p hp
    obtain ⟨ihlen, ihframe, ihcorr⟩ := ih fs (applyEntryH fs h e) hin1 hnd
    refine ⟨?_, ?_, ?_⟩
    · rw [List.foldl_cons, ihlen, applyEntryH_length]
    · intro i hi
      rw [List.foldl_cons, ihframe i hi, applyEntryH_getD_notref fs h e hi]
    · rw [List.foldl_cons, List.foldl_cons, ihcorr,
        applyEntryH_deref fs h e hin hnd]

/-! ## C3/C8: deep-copy lemmas -/

theorem attachRefs_snd :
    ∀ (fs : List (String × Nat)) (start : Nat),
      (attachRefs start fs).map Prod.snd = List.range' start fs.length := by
  intro fs
  induction fs with
  | nil => intro start; rfl
  | cons p fs ih =>
    intro start
    simp only [attachRefs, List.map_cons, List.length_cons]
    rw [ih]
    rfl

theorem attachRefs_fst :
    ∀ (fs : List (String × Nat)) (start : Nat),
      (attachRefs start fs).map Prod.fst = fs.map Prod.fst := by
  intro fs
  induction fs with
  | nil => intro start; rfl
  | cons p fs ih =>
    intro start
    obtain ⟨n, r⟩ := p
    simp only [attachRefs, List.map_cons, ih]

theorem attachRefs_nodup (fs : List (String × Nat)) (start : Nat) :
    ((attachRefs start fs).map Prod.snd).Nodup := by
  rw [attachRefs_snd]
  exact List.nodup_range' _ _

theorem attachRefs_bounds :
    ∀ (fs : List (String × Nat)) (start : Nat), ∀ p ∈ attachRefs start fs,
      start ≤ p.2 ∧ p.2 < start + fs.length := by
  intro fs start p hp
  have : p.2 ∈ (attachRefs start fs).map Prod.snd := List.mem_map_of_mem Prod.snd hp
  rw [attachRefs_snd] at this
  have := List.mem_range'_1.mp this
  omega

/-- Reading the deep copy back gives the original values (original
references must be live). -/
theorem deepcopy_deref :
    ∀ (fs : List (String × Nat)) (h : Heap),
      (∀ p ∈ fs, p.2 < h.length) →
      (attachRefs h.length fs).map
          (fun p => (p.1, derefObj (h ++ fs.map (fun q => derefObj h q.2)) p.2)) =
        fs.map (fun p => (p.1, derefObj h p.2)) := by
  intro fs
  induction fs with
  | nil => intro h _; rfl
  | cons p fs ih =>
    intro h hin
    obtain ⟨n, r⟩ := p
    simp only [attachRefs, List.map_cons, List.cons.injEq]
    constructor
    · have : derefObj (h ++ derefObj h r :: fs.map (fun q => derefObj h q.2))
          h.length = derefObj h r := by
        simp only [derefObj, List.getD_eq_getElem?_getD]
        rw [List.getElem?_append_right le_rfl]
        simp
      rw [this]
    · have hsplit : h ++ derefObj h r :: fs.map (fun q => derefObj h q.2) =
          (h ++ [derefObj h r]) ++ fs.map (fun q => derefObj h q.2) := by
        simp
      have hlen : (h ++ [derefObj h r]).length = h.length + 1 := by simp
      have hmapeq : fs.map (fun q => derefObj h q.2) =
          fs.map (fun q => derefObj (h ++ [derefObj h r]) q.2) := by
        refine List.map_congr_left ?_
        intro q hq
        rw [derefObj_append_left _ (hin q (by simp [hq]))]
      rw [hsplit, hmapeq, ← hlen]
      have := ih (h ++ [derefObj h r]) (fun q hq => by
        rw [hlen]
        have := hin q (by simp [hq])
        omega)
      rw [this]
      refine List.map_congr_left ?_
      intro q hq
      rw [derefObj_append_left _ (hin q (by simp [hq]))]

theorem deepcopyLC_spec (h : Heap) (lc : LCObj)
    (hin : ∀ p ∈ lc.fields, p.2 < h.length) :
    (deepcopyLC h lc).1.length = h.length + lc.fields.length ∧
    (∀ i, i < h.length → derefObj (deepcopyLC h lc).1 i = derefObj h i) ∧
    derefLC (deepcopyLC h lc).1 (deepcopyLC h lc).2 = derefLC h lc ∧
    (∀ p ∈ (deepcopyLC h lc).2.fields,
      h.length ≤ p.2 ∧ p.2 < (deepcopyLC h lc).1.length) ∧
    ((deepcopyLC h lc).2.fields.map Prod.snd).Nodup := by
  dsimp only [deepcopyLC]
  refine ⟨by simp, ?_, ?_, ?_, attachRefs_nodup _ _⟩
  · intro i hi
    exact derefObj_append_left _ hi
  · dsimp only [derefLC]
    rw [deepcopy_deref lc.fields h hin]
  · intro p hp
    have := attachRefs_bounds lc.fields h.length p hp
    simp only [List.length_append, List.length_map]
    omega

theorem mergeDefaultsH_spec (h : Heap) (base : LCObj) (ov : Override)
    (hin : ∀ p ∈ base.fields, p.2 < h.length) :
    (mergeDefaultsH h base ov).1.length = h.length + base.fields.length ∧
    (∀ i, i < h.length →
      derefObj (mergeDefaultsH h base ov).1 i = derefObj h i) ∧
    derefLC (mergeDefaultsH h base ov).1 (mergeDefaultsH h base ov).2 =
      mergeDefaultsV (derefLC h base) ov ∧
    (∀ p ∈ (mergeDefaultsH h base ov).2.fields,
      h.length ≤ p.2 ∧ p.2 < (mergeDefaultsH h base ov).1.length) ∧
    ((mergeDefaultsH h base ov).2.fields.map Prod.snd).Nodup := by
  have hcopylen : (deepcopyLC h base).1.length = h.length + base.fields.length := by
    simp [deepcopyLC]
  have hrin : ∀ p ∈ attachRefs h.length base.fields,
      p.2 < (deepcopyLC h base).1.length := by
    intro p hp
    have := attachRefs_bounds base.fields h.length p hp
    omega
  obtain ⟨flen, fframe, fcorr⟩ :=
    foldEntries_spec ov.fields (attachRefs h.length base.fields)
      (deepcopyLC h base).1 hrin (attachRefs_nodup _ _)
  dsimp only [mergeDefaultsH]
  refine ⟨by rw [flen, hcopylen], ?_, ?_, ?_, attachRefs_nodup _ _⟩
  · intro i hi
    rw [fframe i ?_]
    · dsimp only [deepcopyLC]
      exact derefObj_append_left _ hi
    · intro q hq
      obtain ⟨p, hp, hpq⟩ := List.mem_map.mp hq
      have := (attachRefs_bounds base.fields h.length p hp).1
      omega
  · dsimp only [derefLC, mergeDefaultsV]
    congr 1
    rw [fcorr]
    have hdc := deepcopy_deref base.fields h hin
    dsimp only [deepcopyLC]
    rw [hdc]
  · intro p hp
    have := attachRefs_bounds base.fields h.length p hp
    rw [flen, hcopylen]
    omega

theorem applyLevelStylesH_spec (h : Heap) (cfg : LCObj) (lv : String)
    (hin : ∀ p ∈ cfg.fields, p.2 < h.length)
    (hnd : (cfg.fields.map Prod.snd).Nodup) :
    (applyLevelStylesH h cfg lv).length = h.length ∧
    (∀ i, (∀ q ∈ cfg.fields.map Prod.snd, i ≠ q) →
      derefObj (applyLevelStylesH h cfg lv) i = derefObj h i) ∧
    derefLC (applyLevelStylesH h cfg lv) cfg =
      applyLevelStylesV (derefLC h cfg) lv := by
  unfold applyLevelStylesH applyLevelStylesV
  have hls : (derefLC h cfg).level_stylesV = cfg.level_styles := rfl
  rw [hls]
  cases hfind : cfg.level_styles.find? (fun p => p.1 == lv) with
  | none => exact ⟨rfl, fun _ _ => rfl, rfl⟩
  | some pr =>
    obtain ⟨flen, fframe, fcorr⟩ := foldEntries_spec pr.2 cfg.fields h hin hnd
    refine ⟨flen, fframe, ?_⟩
    dsimp only [derefLC]
    congr 1

theorem HeapExtends.trans {n : Nat} {h1 h2 h3 : Heap}
    (a : HeapExtends n h1 h2) (b : HeapExtends n h2 h3) :
    HeapExtends n h1 h3 :=
  ⟨b.1, fun i hi => (b.2 i hi).trans (a.2 i hi)⟩

theorem deepcopy_stage {n : Nat} (h : Heap) (lc : LCObj)
    (hn : n ≤ h.length) (hin : ∀ p ∈ lc.fields, p.2 < h.length) :
    HeapExtends n h (deepcopyLC h lc).1 ∧
    CfgOk n (deepcopyLC h lc).1 (deepcopyLC h lc).2 ∧
    derefLC (deepcopyLC h lc).1 (deepcopyLC h lc).2 = derefLC h lc := by
  obtain ⟨clen, cframe, ccorr, cbounds, cnodup⟩ := deepcopyLC_spec h lc hin
  exact ⟨⟨by omega, fun i hi => cframe i (by omega)⟩,
    ⟨fun p hp => ⟨le_trans hn (cbounds p hp).1, (cbounds p hp).2⟩, cnodup⟩,
    ccorr⟩

theorem merge_stage {n : Nat} (h : Heap) (base : LCObj) (ov : Override)
    (hn : n ≤ h.length) (hin : ∀ p ∈ base.fields, p.2 < h.length) :
    HeapExtends n h (mergeDefaultsH h base ov).1 ∧
    CfgOk n (mergeDefaultsH h base ov).1 (mergeDefaultsH h base ov).2 ∧
    derefLC (mergeDefaultsH h base ov).1 (mergeDefaultsH h base ov).2 =
      mergeDefaultsV (derefLC h base) ov := by
  obtain ⟨mlen, mframe, mcorr, mbounds, mnodup⟩ := mergeDefaultsH_spec h base ov hin
  exact ⟨⟨by omega, fun i hi => mframe i (by omega)⟩,
    ⟨fun p hp => ⟨le_trans hn (mbounds p hp).1, (mbounds p hp).2⟩, mnodup⟩,
    mcorr⟩

theorem level_stage {n : Nat} (h : Heap) (cfg : LCObj) (lv : String)
    (hn : n ≤ h.length) (hok : CfgOk n h cfg) :
    HeapExtends n h (applyLevelStylesH h cfg lv) ∧
    CfgOk n (applyLevelStylesH h cfg lv) cfg ∧
    derefLC (applyLevelStylesH h cfg lv) cfg =
      applyLevelStylesV (derefLC h cfg) lv := by
  obtain ⟨hbounds, hnodup⟩ := hok
  obtain ⟨llen, lframe, lcorr⟩ :=
    applyLevelStylesH_spec h cfg lv (fun p hp => (hbounds p hp).2) hnodup
  refine ⟨⟨by omega, ?_⟩,
    ⟨fun p hp => ⟨(hbounds p hp).1, by rw [llen]; exact (hbounds p hp).2⟩,
      hnodup⟩, lcorr⟩
  intro i hi
  refine lframe i ?_
  intro q hq
  obtain ⟨p, hp, hpq⟩ := List.mem_map.mp hq
  have := (hbounds p hp).1
  omega

theorem stage2_spec (h : Heap) (sys : LCObj) (tc : Option Override)
    (hin : ∀ p ∈ sys.fields, p.2 < h.length) :
    HeapExtends h.length h (getEffStage2 h sys tc).1 ∧
    CfgOk h.length (getEffStage2 h sys tc).1 (getEffStage2 h sys tc).2 ∧
    derefLC (getEffStage2 h sys tc).1 (getEffStage2 h sys tc).2 =
      getEffStage2V (derefLC h sys) tc := by
  cases tc with
  | none => exact deepcopy_stage h sys le_rfl hin
  | some t =>
    obtain ⟨he1, ok1, corr1⟩ := deepcopy_stage h sys le_rfl hin
    obtain ⟨he2, ok2, corr2⟩ := merge_stage (deepcopyLC h sys).1
      (deepcopyLC h sys).2 t he1.1 (fun p hp => (ok1.1 p hp).2)
    refine ⟨he1.trans he2, ok2, ?_⟩
    show derefLC (mergeDefaultsH (deepcopyLC h sys).1 (deepcopyLC h sys).2 t).1
        (mergeDefaultsH (deepcopyLC h sys).1 (deepcopyLC h sys).2 t).2 =
        mergeDefaultsV (derefLC h sys) t
    rw [corr2, corr1]

theorem stage3_spec {n : Nat} (s2 : Heap × LCObj) (lvl : Option String)
    (hn : n ≤ s2.1.length) (hok : CfgOk n s2.1 s2.2) :
    HeapExtends n s2.1 (getEffStage3 s2 lvl) ∧
    CfgOk n (getEffStage3 s2 lvl) s2.2 ∧
    derefLC (getEffStage3 s2 lvl) s2.2 =
      getEffStage3V (derefLC s2.1 s2.2) lvl := by
  cases lvl with
  | none => exact ⟨⟨hn, fun _ _ => rfl⟩, hok, rfl⟩
  | some lv =>
    by_cases hlv : lv ≠ ""
    · have hst := level_stage s2.1 s2.2 lv hn hok
      have e3 : getEffStage3 s2 (some lv) = applyLevelStylesH s2.1 s2.2 lv := by
        simp only [getEffStage3, if_pos hlv]
      have e3v : getEffStage3V (derefLC s2.1 s2.2) (some lv) =
          applyLevelStylesV (derefLC s2.1 s2.2) lv := by
        simp only [getEffStage3V, if_pos hlv]
      rw [e3, e3v]
      exact hst
    · have e3 : getEffStage3 s2 (some lv) = s2.1 := by
        simp only [getEffStage3, if_neg hlv]
      have e3v : getEffStage3V (derefLC s2.1 s2.2) (some lv) =
          derefLC s2.1 s2.2 := by
        simp only [getEffStage3V, if_neg hlv]
      rw [e3, e3v]
      exact ⟨⟨hn, fun _ _ => rfl⟩, hok, rfl⟩

/-- Full specification of the heap-level resolver: the resolver only
allocates above the original heap (every pre-existing cell is untouched),
and the value denoted by the returned configuration is the value-level
cascade of the value the system defaults denote. -/
theorem getEffH_spec (h : Heap) (sys : LCObj) (tc : Option Override)
    (lvl : Option String) (kw : Option Override)
    (hin : ∀ p ∈ sys.fields, p.2 < h.length) :
    HeapExtends h.length h (getEffH h sys tc lvl kw).1 ∧
    derefLC (getEffH h sys tc lvl kw).1 (getEffH h sys tc lvl kw).2 =
      getEffV (derefLC h sys) tc lvl kw := by
  obtain ⟨he2, ok2, corr2⟩ := stage2_spec h sys tc hin
  obtain ⟨he3, ok3, corr3⟩ := stage3_spec (getEffStage2 h sys tc) lvl he2.1 ok2
  cases kw with
  | none =>
    refine ⟨he2.trans he3, ?_⟩
    show derefLC (getEffStage3 (getEffStage2 h sys tc) lvl)
        (getEffStage2 h sys tc).2 = _
    rw [corr3, corr2]
    rfl
  | some k =>
    obtain ⟨hem, okm, corrm⟩ := merge_stage
      (getEffStage3 (getEffStage2 h sys tc) lvl) (getEffStage2 h sys tc).2 k
      he3.1 (fun p hp => (ok3.1 p hp).2)
    refine ⟨(he2.trans he3).trans hem, ?_⟩
    show derefLC (mergeDefaultsH (getEffStage3 (getEffStage2 h sys tc) lvl)
        (getEffStage2 h sys tc).2 k).1
      (mergeDefaultsH (getEffStage3 (getEffStage2 h sys tc) lvl)
        (getEffStage2 h sys tc).2 k).2 = _
    rw [corrm, corr3, corr2]
    rfl

/-- C3: the cascade resolver never mutates the system-defaults object or
any pre-existing heap cell; the configuration it returns denotes exactly
the value-level cascade of the system defaults' value (so two calls with
identical inputs return structurally identical configurations); and the
result is independent: re-running the resolver on any later heap that
still agrees on the original cells — in particular after arbitrary
mutations of the first result's (fresh) field objects — denotes the same
value again. -/
theorem c3_resolver_pure (h : Heap) (sys : LCObj) (tc : Option Override)
    (lvl : Option String) (kw : Option Override)
    (hin : ∀ p ∈ sys.fields, p.2 < h.length) :
    (∀ i, i < h.length →
      derefObj (getEffH h sys tc lvl kw).1 i = derefObj h i) ∧
    derefLC (getEffH h sys tc lvl kw).1 sys = derefLC h sys ∧
    derefLC (getEffH h sys tc lvl kw).1 (getEffH h sys tc lvl kw).2 =
      getEffV (derefLC h sys) tc lvl kw ∧
    (∀ h2 : Heap, h.length ≤ h2.length →
      (∀ i, i < h.length → derefObj h2 i = derefObj h i) →
      derefLC (getEffH h2 sys tc lvl kw).1 (getEffH h2 sys tc lvl kw).2 =
        derefLC (getEffH h sys tc lvl kw).1 (getEffH h sys tc lvl kw).2) := by
  obtain ⟨⟨hlen, hframe⟩, hcorr⟩ := getEffH_spec h sys tc lvl kw hin
  have hsys : ∀ (hx : Heap), (∀ i, i < h.length → derefObj hx i = derefObj h i) →
      derefLC hx sys = derefLC h sys := by
    intro hx hagree
    dsimp only [derefLC]
    congr 1
    refine List.map_congr_left ?_
    intro p hp
    rw [hagree p.2 (hin p hp)]
  refine ⟨hframe, hsys _ hframe, hcorr, ?_⟩
  intro h2 hlen2 hagree
  have hin2 : ∀ p ∈ sys.fields, p.2 < h2.length :=
    fun p hp => lt_of_lt_of_le (hin p hp) hlen2
  obtain ⟨_, hcorr2⟩ := getEffH_spec h2 sys tc lvl kw hin2
  rw [hcorr2, hcorr, hsys h2 hagree]

/-- Witness for `c3_resolver_pure`: the default configuration on its
four-cell heap, with the sample template override and level `INFO`. -/
theorem c3_witness :
    (∀ p ∈ defaultLCObj.fields, p.2 < defaultHeap.length) ∧
    derefLC (getEffH defaultHeap defaultLCObj (some sampleOverride)
        (some "INFO") none).1 defaultLCObj = derefLC defaultHeap defaultLCObj ∧
    derefLC (getEffH defaultHeap defaultLCObj (some sampleOverride)
        (some "INFO") none).1
      (getEffH defaultHeap defaultLCObj (some sampleOverride)
        (some "INFO") none).2 =
      getEffV (derefLC defaultHeap defaultLCObj) (some sampleOverride)
        (some "INFO") none :=
  ⟨by decide,
    (c3_resolver_pure defaultHeap defaultLCObj (some sampleOverride)
      (some "INFO") none (by decide)).2.1,
    (c3_resolver_pure defaultHeap defaultLCObj (some sampleOverride)
      (some "INFO") none (by decide)).2.2.1⟩

/-! ## C8: unknown override fields and the fixed field set -/

theorem assocSetField_fst (fs : List (String × Obj)) (name : String)
    (attrs : List (String × AttrVal)) :
    (assocSetField fs name attrs).map Prod.fst = fs.map Prod.fst := by
  induction fs with
  | nil => rfl
  | cons p fs ih =>
    obtain ⟨n, o⟩ := p
    by_cases hn : n = name
    · simp [assocSetField, hn]
    · simp [assocSetField, hn, ih]

theorem assocSetField_not_mem {fs : List (String × Obj)} {name : String}
    (attrs : List (String × AttrVal)) (hmem : name ∉ fs.map Prod.fst) :
    assocSetField fs name attrs = fs := by
  induction fs with
  | nil => rfl
  | cons p fs ih =>
    obtain ⟨n, o⟩ := p
    simp only [List.map_cons, List.mem_cons] at hmem
    push_neg at hmem
    rw [assocSetField, if_neg (fun hc => hmem.1 hc.symm), ih hmem.2]

theorem foldFieldsV_fst (entries : List (String × List (String × AttrVal))) :
    ∀ (fs : List (String × Obj)),
      ((entries.foldl (fun fv e => assocSetField fv e.1 e.2) fs).map Prod.fst) =
        fs.map Prod.fst := by
  induction entries with
  | nil => intro fs; rfl
  | cons e entries ih =>
    intro fs
    rw [List.foldl_cons, ih, assocSetField_fst]

theorem mergeDefaultsV_fst (base : LCVal) (ov : Override) :
    ((mergeDefaultsV base ov).fieldsV).map Prod.fst =
      base.fieldsV.map Prod.fst := by
  dsimp only [mergeDefaultsV]
  rw [foldFieldsV_fst]

theorem applyLevelStylesV_fst (cfg : LCVal) (lv : String) :
    ((applyLevelStylesV cfg lv).fieldsV).map Prod.fst =
      cfg.fieldsV.map Prod.fst := by
  unfold applyLevelStylesV
  cases cfg.level_stylesV.find? (fun p => p.1 == lv) with
  | none => rfl
  | some pr => exact foldFieldsV_fst pr.2 cfg.fieldsV

theorem getEffV_fst (sys : LCVal) (tc : Option Override) (lvl : Option String)
    (kw : Option Override) :
    ((getEffV sys tc lvl kw).fieldsV).map Prod.fst =
      sys.fieldsV.map Prod.fst := by
  have h2 : ((getEffStage2V sys tc).fieldsV).map Prod.fst =
      sys.fieldsV.map Prod.fst := by
    cases tc with
    | none => rfl
    | some t => exact mergeDefaultsV_fst sys t
  have h3 : ((getEffStage3V (getEffStage2V sys tc) lvl).fieldsV).map Prod.fst =
      sys.fieldsV.map Prod.fst := by
    cases lvl with
    | none => exact h2
    | some lv =>
      by_cases hlv : lv ≠ ""
      · rw [getEffStage3V, if_pos hlv, applyLevelStylesV_fst]
        exact h2
      · rw [getEffStage3V, if_neg hlv]
        exact h2
  cases kw with
  | none => exact h3
  | some k =>
    show ((mergeDefaultsV (getEffStage3V (getEffStage2V sys tc) lvl) k).fieldsV).map
        Prod.fst = _
    rw [mergeDefaultsV_fst]
    exact h3

/-- C8: an override entry naming a field outside the config's field dict
is silently ignored — an override all of whose entries are unknown (and
with no `total_width` key) leaves the configuration unchanged and raises
no error; and the resolver's result always carries exactly the four field
names `message`, `padding`, `reason`, `status` (with `padding` present)
when started from the default system configuration, whatever the
template, level and per-call overrides are. -/
theorem c8_unknown_fields_ignored :
    (∀ (base : LCVal) (ov : Override), ov.total_width = none →
      (∀ e ∈ ov.fields, e.1 ∉ base.fieldsV.map Prod.fst) →
      mergeDefaultsV base ov = base) ∧
    (∀ (tc : Option Override) (lvl : Option String) (kw : Option Override),
      ((getEffV defaultLCVal tc lvl kw).fieldsV).map Prod.fst =
        ["message", "padding", "reason", "status"]) := by
  constructor
  · intro base ov htw hunk
    have hfold : ∀ (entries : List (String × List (String × AttrVal)))
        (fs : List (String × Obj)), (∀ e ∈ entries, e.1 ∉ fs.map Prod.fst) →
        entries.foldl (fun fv e => assocSetField fv e.1 e.2) fs = fs := by
      intro entries
      induction entries with
      | nil => intro fs _; rfl
      | cons e entries ih =>
        intro fs hu
        rw [List.foldl_cons, assocSetField_not_mem e.2 (hu e (by simp)),
          ih fs (fun x hx => hu x (by simp [hx]))]
    dsimp only [mergeDefaultsV]
    rw [htw, hfold ov.fields base.fieldsV hunk]
  · intro tc lvl kw
    rw [getEffV_fst]
    decide

/-- Witness for `c8_unknown_fields_ignored`: an override whose only entry
names the unknown field `bogus` is a no-op on the default configuration,
and a concrete cascade still carries exactly the four field names. -/
theorem c8_witness :
    mergeDefaultsV defaultLCVal
        ⟨none, [("bogus", [("min_width", AttrVal.vInt 5)])]⟩ = defaultLCVal ∧
    ((getEffV defaultLCVal (some sampleOverride) (some "INFO")
        none).fieldsV).map Prod.fst =
      ["message", "padding", "reason", "status"] :=
  ⟨c8_unknown_fields_ignored.1 defaultLCVal
      ⟨none, [("bogus", [("min_width", AttrVal.vInt 5)])]⟩ rfl (by decide),
    c8_unknown_fields_ignored.2 (some sampleOverride) (some "INFO") none⟩

/-! ## C5: alignment of the composed lines -/

theorem ljust_length {s : List Char} {w : Int} (h : (s.length : Int) ≤ w) :
    (ljust s w).length = w.toNat := by
  simp only [ljust, List.length_append, List.length_replicate]
  omega

theorem rjust_length {s : List Char} {w : Int} (h : (s.length : Int) ≤ w) :
    (rjust s w).length = w.toNat := by
  simp only [rjust, List.length_append, List.length_replicate]
  omega

theorem asciiPrintable_space : asciiPrintable ' ' = true := by decide

theorem ljust_ascii {s : List Char} (w : Int)
    (h : ∀ c ∈ s, asciiPrintable c = true) :
    ∀ c ∈ ljust s w, asciiPrintable c = true := by
  intro c hc
  rcases List.mem_append.mp hc with hc | hc
  · exact h c hc
  · rw [List.eq_of_mem_replicate hc]
    exact asciiPrintable_space

theorem rjust_ascii {s : List Char} (w : Int)
    (h : ∀ c ∈ s, asciiPrintable c = true) :
    ∀ c ∈ rjust s w, asciiPrintable c = true := by
  intro c hc
  rcases List.mem_append.mp hc with hc | hc
  · rw [List.eq_of_mem_replicate hc]
    exact asciiPrintable_space
  · exact h c hc

theorem pyRepeatStr_single (c : Char) (n : Int) :
    pyRepeatStr [c] n = List.replicate n.toNat c := by
  simp only [pyRepeatStr]
  generalize n.toNat = k
  induction k with
  | zero => rfl
  | succ k ih => simp [List.replicate_succ, ih]

theorem wrapStep_chars {P : Char → Prop} (hsp : P ' ') {maxWidth : Int}
    {st : WrapSt} {word : List Char} (hw : ∀ c ∈ word, P c)
    (hst : wrapStChars P st) : wrapStChars P (wrapStep maxWidth st word) := by
  obtain ⟨hlines, hline⟩ := hst
  have hflush : ∀ l ∈ (if st.line = [] then st.lines else st.lines ++ [st.line]),
      ∀ c ∈ l, P c := by
    intro l hl
    by_cases hemp : st.line = []
    · rw [if_pos hemp] at hl; exact hlines l hl
    · rw [if_neg hemp] at hl
      rcases List.mem_append.mp hl with hl | hl
      · exact hlines l hl
      · have : l = st.line := by simpa using hl
        subst this
        exact hline
  have hchunk : ∀ l ∈ chunksBy maxWidth.toNat word, ∀ c ∈ l, P c :=
    fun l hl c hc => hw c (chunksBy_mem_subset hl c hc)
  have hlast : ∀ c ∈ (chunksBy maxWidth.toNat word).getLastD [], P c := by
    intro c hc
    by_cases hcs : chunksBy maxWidth.toNat word = []
    · rw [hcs] at hc
      simp [List.getLastD] at hc
    · exact hchunk _ (getLastD_mem _ _ hcs) c hc
  have hcat : ∀ l ∈ (if st.line = [] then st.lines else st.lines ++ [st.line]) ++
      (chunksBy maxWidth.toNat word).dropLast, ∀ c ∈ l, P c := by
    intro l hl
    rcases List.mem_append.mp hl with hl | hl
    · exact hflush l hl
    · exact hchunk l (List.dropLast_subset _ hl)
  unfold wrapStep
  by_cases hemp : st.line = []
  · rw [if_pos hemp]
    by_cases hfit : st.width + 0 + wcswidth word ≤ maxWidth
    · rw [if_pos hfit, if_pos hemp]
      exact ⟨hlines, hw⟩
    · rw [if_neg hfit]
      by_cases hbig : maxWidth < wcswidth word
      · rw [if_pos hbig]
        exact ⟨hcat, hlast⟩
      · rw [if_neg hbig]
        exact ⟨hflush, hw⟩
  · rw [if_neg hemp]
    by_cases hfit : st.width + 1 + wcswidth word ≤ maxWidth
    · rw [if_pos hfit, if_neg hemp]
      refine ⟨hlines, ?_⟩
      intro c hc
      rcases List.mem_append.mp hc with hc | hc
      · exact hline c hc
      · rcases List.mem_cons.mp hc with hc | hc
        · subst hc; exact hsp
        · exact hw c hc
    · rw [if_neg hfit]
      by_cases hbig : maxWidth < wcswidth word
      · rw [if_pos hbig]
        exact ⟨hcat, hlast⟩
      · rw [if_neg hbig]
        exact ⟨hflush, hw⟩

theorem wrapFold_chars {P : Char → Prop} (hsp : P ' ') {maxWidth : Int} :
    ∀ (ws : List (List Char)) (st : WrapSt),
      (∀ w ∈ ws, ∀ c ∈ w, P c) → wrapStChars P st →
      wrapStChars P (ws.foldl (wrapStep maxWidth) st) := by
  intro ws
  induction ws with
  | nil => intro st _ h; exact h
  | cons w ws ih =>
    intro st hws hst
    exact ih _ (fun x hx => hws x (by simp [hx]))
      (wrapStep_chars hsp (hws w (by simp)) hst)

theorem wrapText_chars {P : Char → Prop} (hsp : P ' ') (text : List Char)
    (maxWidth : Int) (htext : ∀ c ∈ text, P c) :
    ∀ l ∈ wrapText text maxWidth true, ∀ c ∈ l, P c := by
  intro l hl
  by_cases hguard : text = [] ∨ maxWidth ≤ 0
  · rw [wrapText, if_pos hguard] at hl
    simp at hl
  · rw [wrapText, if_neg hguard] at hl
    obtain ⟨hlines, hline⟩ :=
      wrapFold_chars hsp (wordsOf text) ⟨[], [], 0⟩
        (fun w hw c hc => htext c (wordsOf_mem_subset hw c hc))
        ⟨by simp, by simp⟩
    rcases List.mem_append.mp hl with hl | hl
    · exact hlines l hl
    · by_cases hemp : ((wordsOf text).foldl (wrapStep maxWidth) ⟨[], [], 0⟩).line = []
      · rw [if_pos hemp] at hl
        simp at hl
      · rw [if_neg hemp] at hl
        have : l = ((wordsOf text).foldl (wrapStep maxWidth) ⟨[], [], 0⟩).line := by
          simpa using hl
        subst this
        exact hline

/-- For ASCII text, every word-wrapped line is ASCII and at most
`maxWidth` characters long. -/
theorem wrapText_ascii_len {text : List Char} {maxWidth : Int}
    (hmw : 0 < maxWidth) (hA : ∀ c ∈ text, asciiPrintable c = true) :
    ∀ l ∈ wrapText text maxWidth true,
      (∀ c ∈ l, asciiPrintable c = true) ∧ l.length ≤ maxWidth.toNat := by
  intro l hl
  have hlA : ∀ c ∈ l, asciiPrintable c = true := by
    refine wrapText_chars ?_ text maxWidth hA l hl
    exact asciiPrintable_space
  refine ⟨hlA, ?_⟩
  rcases wrapText_goodLine text maxWidth hmw l hl with hgood | hgood
  · have := wcswidth_ascii hlA
    omega
  · obtain ⟨word, _, _, hchunk⟩ := hgood
    exact chunksBy_mem_length hchunk

theorem wordsGo_ne_nil_of_nonspace :
    ∀ (f : Nat) (s : List Char), s.length ≤ f →
      (∃ c ∈ s, isPySpace c = false) → wordsGo f s ≠ [] := by
  intro f
  induction f with
  | zero =>
    intro s hl hex
    obtain ⟨c, hc, _⟩ := hex
    rw [List.length_eq_zero.mp (Nat.le_zero.mp hl)] at hc
    simp at hc
  | succ n ih =>
    intro s hl hex
    cases s with
    | nil => obtain ⟨c, hc, _⟩ := hex; simp at hc
    | cons x xs =>
      by_cases hsp : isPySpace x
      · rw [wordsGo, if_pos hsp]
        refine ih xs (by simp at hl; omega) ?_
        obtain ⟨c, hc, hcf⟩ := hex
        rcases List.mem_cons.mp hc with hc | hc
        · rw [hc] at hcf; rw [hcf] at hsp; simp at hsp
        · exact ⟨c, hc, hcf⟩
      · rw [wordsGo, if_neg hsp]
        simp

theorem wordsOf_ne_nil {s : List Char} (hex : ∃ c ∈ s, isPySpace c = false) :
    wordsOf s ≠ [] :=
  wordsGo_ne_nil_of_nonspace s.length s le_rfl hex

theorem intercalate_space_eq_nil :
    ∀ {L : List (List Char)}, List.intercalate [' '] L = [] → L = [] ∨ L = [[]] := by
  intro L h
  cases L with
  | nil => left; rfl
  | cons x t =>
    cases t with
    | nil =>
      right
      simp [List.intercalate] at h
      rw [h]
    | cons y t' =>
      rw [intercalate_cons_cons] at h
      simp at h

theorem chunkOrSelf_ne_nil {mw : Int} {word : List Char} (hmw : 0 < mw)
    (hw : word ≠ []) :
    chunkOrSelf mw word ≠ [] ∧ ∀ l ∈ chunkOrSelf mw word, l ≠ [] := by
  unfold chunkOrSelf
  split_ifs
  · exact ⟨chunksBy_ne_nil hw, fun l hl => chunksBy_mem_ne_nil (by omega) hl⟩
  · refine ⟨by simp, ?_⟩
    intro l hl
    have : l = word := by simpa using hl
    rw [this]
    exact hw

theorem wrapText_ne_nil {text : List Char} {mw : Int} (hmw : 0 < mw)
    (hwords : wordsOf text ≠ []) : wrapText text mw true ≠ [] := by
  intro hcon
  have hflat := wrapText_flat text mw hmw
  rw [hcon] at hflat
  cases hwo : wordsOf text with
  | nil => exact hwords hwo
  | cons w0 ws =>
    have hw0 : w0 ≠ [] := wordsOf_mem_ne_nil (by rw [hwo]; simp)
    rw [hwo, List.flatMap_cons] at hflat
    obtain ⟨hne, hels⟩ := chunkOrSelf_ne_nil hmw hw0
    cases hco : chunkOrSelf mw w0 with
    | nil => exact hne hco
    | cons a as =>
      rw [hco, List.cons_append] at hflat
      rcases intercalate_space_eq_nil hflat.symm with h | h
      · simp at h
      · rw [List.cons.injEq] at h
        exact hels a (by rw [hco]; simp) h.1

theorem calculateWidths_default_ascii (m r s : List Char)
    (hmA : ∀ c ∈ m, asciiPrintable c = true)
    (hrA : ∀ c ∈ r, asciiPrintable c = true)
    (hsA : ∀ c ∈ s, asciiPrintable c = true)
    (hm : m ≠ []) (hr : r ≠ []) (hs : s ≠ []) :
    calculateWidths defaultLogC m r s =
      ⟨min (m.length : Int) 55, min ((r.length : Int) + 2) 22,
        min (s.length : Int) 10,
        max 3 (80 - (min (m.length : Int) 55 + min ((r.length : Int) + 2) 22 +
          min (s.length : Int) 10))⟩ := by
  have hm' := wcswidth_ascii hmA
  have hr' := wcswidth_ascii hrA
  have hs' := wcswidth_ascii hsA
  have hml : 1 ≤ m.length := List.length_pos.mpr hm
  have hrl : 1 ≤ r.length := List.length_pos.mpr hr
  have hsl : 1 ≤ s.length := List.length_pos.mpr hs
  simp only [calculateWidths, defaultLogC, clampWidth, hm', hr', hs',
    if_pos hr, if_pos hs, List.length_nil, List.length_singleton,
    Nat.cast_zero, Nat.cast_one, add_zero]
  rw [WidthsV.mk.injEq]
  refine ⟨?_, ?_, ?_, ?_⟩ <;> split_ifs <;> omega

theorem formatField_message_default (content : List Char) (width : Int)
    (hA : ∀ c ∈ content, asciiPrintable c = true) (hw : 0 < width)
    (hne : wrapText content width true ≠ []) :
    ∀ l ∈ formatField defaultLogC content FName.message width,
      l.length = width.toNat ∧ ∀ c ∈ l, asciiPrintable c = true := by
  have hred : formatField defaultLogC content FName.message width =
      (List.range (wrapText content width true).length).map
        (fun i => ljust ((wrapText content width true).getD i []) width) := by
    simp [formatField, fieldOf, defaultLogC, ite_self, hne]
  intro l hl
  rw [hred] at hl
  obtain ⟨i, hi, hleq⟩ := List.mem_map.mp hl
  have hiw : i < (wrapText content width true).length := List.mem_range.mp hi
  have hmem : (wrapText content width true).getD i [] ∈
      wrapText content width true := by
    rw [List.getD_eq_getElem?_getD, List.getElem?_eq_getElem hiw]
    exact List.getElem_mem hiw
  obtain ⟨hascii, hlen⟩ := wrapText_ascii_len hw hA _ hmem
  rw [← hleq]
  exact ⟨ljust_length (by omega), ljust_ascii width hascii⟩

theorem pyTakeTo_subset (s : List Char) (n : Int) : ∀ x ∈ pyTakeTo s n, x ∈ s := by
  intro x hx
  unfold pyTakeTo at hx
  split_ifs at hx <;> exact List.take_subset _ _ hx

theorem pyTakeTo_length (s : List Char) {n : Int} (hn : 0 ≤ n) :
    ((pyTakeTo s n).length : Int) = min n (s.length : Int) := by
  simp only [pyTakeTo, if_pos hn, List.length_take]
  omega

theorem formatField_reason_default (r : List Char) (width : Int)
    (hA : ∀ c ∈ r, asciiPrintable c = true) (h3 : 3 ≤ width)
    (hub : width ≤ (r.length : Int) + 2) :
    ∀ l ∈ formatField defaultLogC r FName.reason width,
      l.length = width.toNat ∧ ∀ c ∈ l, asciiPrintable c = true := by
  have hr' := wcswidth_ascii hA
  have hred : formatField defaultLogC r FName.reason width =
      [rjust (['('] ++
        (if width - 1 - 1 < (r.length : Int) then pyTakeTo r (width - 1 - 1)
         else r) ++ [')']) width] := by
    simp [formatField, fieldOf, defaultLogC, hr']
  intro l hl
  rw [hred] at hl
  have hleq : l = rjust (['('] ++
      (if width - 1 - 1 < (r.length : Int) then pyTakeTo r (width - 1 - 1)
       else r) ++ [')']) width := by simpa using hl
  subst hleq
  have hascii : ∀ c ∈ ['('] ++
      (if width - 1 - 1 < (r.length : Int) then pyTakeTo r (width - 1 - 1)
       else r) ++ [')'], asciiPrintable c = true := by
    intro c hc
    rcases List.mem_append.mp hc with hc | hc
    · rcases List.mem_append.mp hc with hc | hc
      · have : c = '(' := by simpa using hc
        subst this
        decide
      · split_ifs at hc
        · exact hA c (pyTakeTo_subset r _ c hc)
        · exact hA c hc
    · have : c = ')' := by simpa using hc
      subst this
      decide
  have hlen : (((['('] ++
      (if width - 1 - 1 < (r.length : Int) then pyTakeTo r (width - 1 - 1)
       else r) ++ [')']).length : Int)) ≤ width := by
    split_ifs with htr
    · have hpt := pyTakeTo_length r (show (0:Int) ≤ width - 1 - 1 by omega)
      simp only [List.length_append, List.length_singleton, Nat.cast_add,
        Nat.cast_one]
      omega
    · simp only [List.length_append, List.length_singleton, Nat.cast_add,
        Nat.cast_one]
      omega
  exact ⟨rjust_length hlen, rjust_ascii width hascii⟩

theorem formatField_status_default (s : List Char) (width : Int)
    (hA : ∀ c ∈ s, asciiPrintable c = true) (h1 : 1 ≤ width)
    (hub : width ≤ (s.length : Int)) :
    ∀ l ∈ formatField defaultLogC s FName.status width,
      l.length = width.toNat ∧ ∀ c ∈ l, asciiPrintable c = true := by
  have hs' := wcswidth_ascii hA
  have hred : formatField defaultLogC s FName.status width =
      [if width < (s.length : Int) then pyTakeTo s width else s] := by
    simp [formatField, fieldOf, defaultLogC, hs']
  intro l hl
  rw [hred] at hl
  have hleq : l = if width < (s.length : Int) then pyTakeTo s width else s := by
    simpa using hl
  subst hleq
  constructor
  · split_ifs with htr
    · have hpt := pyTakeTo_length s (show (0:Int) ≤ width by omega)
      omega
    · omega
  · intro c hc
    split_ifs at hc
    · exact hA c (pyTakeTo_subset s _ c hc)
    · exact hA c hc

theorem formatField_padding_default (width : Int) (h2 : 2 ≤ width) :
    ((formatField defaultLogC [] FName.padding width).headD []).length =
      width.toNat ∧
    ∀ c ∈ (formatField defaultLogC [] FName.padding width).headD [],
      asciiPrintable c = true := by
  have hred : formatField defaultLogC [] FName.padding width =
      [[' '] ++ List.replicate (width - 1 - 1).toNat '.' ++ [' ']] := by
    simp [formatField, fieldOf, defaultLogC, pyRepeatStr_single]
  rw [hred]
  constructor
  · simp
    omega
  · intro c hc
    simp only [List.headD_cons] at hc
    rcases List.mem_append.mp hc with hc | hc
    · rcases List.mem_append.mp hc with hc | hc
      · have : c = ' ' := by simpa using hc
        subst this
        decide
      · rw [List.eq_of_mem_replicate hc]
        decide
    · have : c = ' ' := by simpa using hc
      subst this
      decide

theorem applyStyle_none (t : List Char) : applyStyle t none none = t := rfl

theorem formatField_reason_len (r : List Char) (width : Int) :
    (formatField defaultLogC r FName.reason width).length = 1 := by
  simp only [formatField, fieldOf, defaultLogC]
  split_ifs <;> simp_all

theorem formatField_status_len (s : List Char) (width : Int) :
    (formatField defaultLogC s FName.status width).length = 1 := by
  simp only [formatField, fieldOf, defaultLogC]
  split_ifs <;> simp_all

theorem c5core (m r s : List Char)
    (hmA : ∀ c ∈ m, asciiPrintable c = true)
    (hrA : ∀ c ∈ r, asciiPrintable c = true)
    (hsA : ∀ c ∈ s, asciiPrintable c = true)
    (hmw : ∃ c ∈ m, isPySpace c = false) (hr : r ≠ []) (hs : s ≠ []) :
    ∀ l ∈ formatLines defaultLogC m r s,
      l.length = (calculateWidths defaultLogC m r s).message.toNat +
        (calculateWidths defaultLogC m r s).padding.toNat +
        (calculateWidths defaultLogC m r s).reason.toNat +
        (calculateWidths defaultLogC m r s).status.toNat ∧
      ∀ c ∈ l, asciiPrintable c = true := by
  have hm : m ≠ [] := by
    obtain ⟨c, hc, _⟩ := hmw
    intro h
    rw [h] at hc
    simp at hc
  have hwcalc := calculateWidths_default_ascii m r s hmA hrA hsA hm hr hs
  have hml : 1 ≤ m.length := List.length_pos.mpr hm
  have hrl : 1 ≤ r.length := List.length_pos.mpr hr
  have hsl : 1 ≤ s.length := List.length_pos.mpr hs
  have hwm : (calculateWidths defaultLogC m r s).message = min (m.length : Int) 55 := by
    rw [hwcalc]
  have hwr : (calculateWidths defaultLogC m r s).reason = min ((r.length : Int) + 2) 22 := by
    rw [hwcalc]
  have hws : (calculateWidths defaultLogC m r s).status = min (s.length : Int) 10 := by
    rw [hwcalc]
  have hwp : (calculateWidths defaultLogC m r s).padding =
      max 3 (80 - (min (m.length : Int) 55 + min ((r.length : Int) + 2) 22 +
        min (s.length : Int) 10)) := by
    rw [hwcalc]
  have hwm1 : 1 ≤ (calculateWidths defaultLogC m r s).message := by rw [hwm]; omega
  have hwr3 : 3 ≤ (calculateWidths defaultLogC m r s).reason := by rw [hwr]; omega
  have hwrub : (calculateWidths defaultLogC m r s).reason ≤ (r.length : Int) + 2 := by
    rw [hwr]; omega
  have hws1 : 1 ≤ (calculateWidths defaultLogC m r s).status := by rw [hws]; omega
  have hwsub : (calculateWidths defaultLogC m r s).status ≤ (s.length : Int) := by
    rw [hws]; omega
  have hwp3 : 3 ≤ (calculateWidths defaultLogC m r s).padding := by rw [hwp]; omega
  have hmsgne : wrapText m (calculateWidths defaultLogC m r s).message true ≠ [] :=
    wrapText_ne_nil (by omega) (wordsOf_ne_nil hmw)
  have hmsgF := formatField_message_default m
    (calculateWidths defaultLogC m r s).message hmA (by omega) hmsgne
  have hrsnF := formatField_reason_default r
    (calculateWidths defaultLogC m r s).reason hrA hwr3 hwrub
  have hstsF := formatField_status_default s
    (calculateWidths defaultLogC m r s).status hsA hws1 hwsub
  have hpadF := formatField_padding_default
    (calculateWidths defaultLogC m r s).padding (by omega)
  -- the message piece
  have hmsgP : ∀ i : Nat, (msgPiece defaultLogC m r s i).length =
      (calculateWidths defaultLogC m r s).message.toNat ∧
      ∀ c ∈ msgPiece defaultLogC m r s i, asciiPrintable c = true := by
    intro i
    simp only [msgPiece]
    rw [show defaultLogC.message.color = none from rfl,
        show defaultLogC.message.style = none from rfl, applyStyle_none]
    by_cases hi : i < (formatField defaultLogC m FName.message
        (calculateWidths defaultLogC m r s).message).length
    · rw [if_pos hi]
      refine hmsgF _ ?_
      rw [List.getD_eq_getElem?_getD, List.getElem?_eq_getElem hi]
      exact List.getElem_mem hi
    · rw [if_neg hi]
      refine ⟨by simp [pyRepeatChar], ?_⟩
      intro c hc
      rw [List.eq_of_mem_replicate hc]
      exact asciiPrintable_space
  -- the padding piece
  have hpadP : (padPiece defaultLogC m r s).length =
      (calculateWidths defaultLogC m r s).padding.toNat ∧
      ∀ c ∈ padPiece defaultLogC m r s, asciiPrintable c = true := by
    simp only [padPiece]
    rw [show defaultLogC.padding.color = none from rfl,
        show defaultLogC.padding.style = none from rfl, applyStyle_none]
    exact hpadF
  -- the reason piece
  have hrsnNE : (if r ≠ [] ∧ 0 < (calculateWidths defaultLogC m r s).reason
      then formatField defaultLogC r FName.reason
        (calculateWidths defaultLogC m r s).reason
      else []) = formatField defaultLogC r FName.reason
        (calculateWidths defaultLogC m r s).reason := by
    rw [if_pos ⟨hr, by omega⟩]
  have hrsnP : ∀ i : Nat,
      ((reasonPieces defaultLogC m r s i).flatten).length =
        (calculateWidths defaultLogC m r s).reason.toNat ∧
      ∀ c ∈ (reasonPieces defaultLogC m r s i).flatten, asciiPrintable c = true := by
    intro i
    simp only [reasonPieces, hrsnNE]
    have hlen1 := formatField_reason_len r (calculateWidths defaultLogC m r s).reason
    have hne : formatField defaultLogC r FName.reason
        (calculateWidths defaultLogC m r s).reason ≠ [] := by
      intro h; rw [h] at hlen1; simp at hlen1
    rw [if_pos hne]
    rw [show defaultLogC.reason.color = none from rfl,
        show defaultLogC.reason.style = none from rfl, applyStyle_none]
    by_cases hi : i < (formatField defaultLogC r FName.reason
        (calculateWidths defaultLogC m r s).reason).length
    · rw [if_pos hi]
      simp only [List.flatten, List.append_nil]
      refine hrsnF _ ?_
      rw [List.getD_eq_getElem?_getD, List.getElem?_eq_getElem hi]
      exact List.getElem_mem hi
    · rw [if_neg hi]
      simp only [List.flatten, List.append_nil]
      refine ⟨by simp [pyRepeatChar], ?_⟩
      intro c hc
      rw [List.eq_of_mem_replicate hc]
      exact asciiPrintable_space
  -- the status piece
  have hstsNE : (if s ≠ [] ∧ 0 < (calculateWidths defaultLogC m r s).status
      then formatField defaultLogC s FName.status
        (calculateWidths defaultLogC m r s).status
      else []) = formatField defaultLogC s FName.status
        (calculateWidths defaultLogC m r s).status := by
    rw [if_pos ⟨hs, by omega⟩]
  have hstsP : ∀ i : Nat,
      ((statusPieces defaultLogC m r s i).flatten).length =
        (calculateWidths defaultLogC m r s).status.toNat ∧
      ∀ c ∈ (statusPieces defaultLogC m r s i).flatten, asciiPrintable c = true := by
    intro i
    have hlen1 := formatField_status_len s (calculateWidths defaultLogC m r s).status
    have hne : formatField defaultLogC s FName.status
        (calculateWidths defaultLogC m r s).status ≠ [] := by
      intro h; rw [h] at hlen1; simp at hlen1
    simp only [statusPieces, hstsNE]
    by_cases hi : i = 0
    · rw [if_pos ⟨hne, hi⟩]
      rw [show defaultLogC.status.color = none from rfl,
          show defaultLogC.status.style = none from rfl, applyStyle_none]
      simp only [List.flatten, List.append_nil]
      refine hstsF _ ?_
      cases hF : formatField defaultLogC s FName.status
          (calculateWidths defaultLogC m r s).status with
      | nil => exact absurd hF hne
      | cons x t => simp [hF]
    · rw [if_neg (by intro h; exact hi h.2), if_pos ⟨hs, Nat.pos_of_ne_zero hi⟩]
      simp only [List.flatten, List.append_nil]
      refine ⟨by simp [pyRepeatChar], ?_⟩
      intro c hc
      rw [List.eq_of_mem_replicate hc]
      exact asciiPrintable_space
  -- assemble
  intro l hl
  simp only [formatLines, List.mem_map, List.mem_range] at hl
  obtain ⟨i, hi, rfl⟩ := hl
  simp only [linePieces, List.flatten_append, List.flatten_cons, List.flatten_nil,
    List.append_nil]
  constructor
  · rw [List.length_append, List.length_append, List.length_append,
      (hmsgP i).1, hpadP.1, (hrsnP i).1, (hstsP i).1]
  · intro c hc
    rcases List.mem_append.mp hc with hc | hc
    · rcases List.mem_append.mp hc with hc | hc
      · rcases List.mem_append.mp hc with hc | hc
        · exact (hmsgP i).2 c hc
        · exact hpadP.2 c hc
      · exact (hrsnP i).2 c hc
    · exact (hstsP i).2 c hc

/-- C5 (amended): with the default configuration, for printable-ASCII
content — where each character occupies one display column — with a
non-blank message and non-empty reason and status, every output line of
`format_line` has the same display width.  The code aligns by character
count, so for width-1 characters this coincides with display columns; the
restriction to the default configuration is essential: at a configuration
whose status field wraps, the status column of line 0 is emitted unpadded
and equal widths fail even for ASCII content (e.g. `status.wrap=true`,
message `mmm`, reason `r`, status `AAAAA BBBBB` gives line display widths
75 and 80). -/
theorem c5_alignment_amended (m r s : List Char)
    (hmA : ∀ c ∈ m, asciiPrintable c = true)
    (hrA : ∀ c ∈ r, asciiPrintable c = true)
    (hsA : ∀ c ∈ s, asciiPrintable c = true)
    (hmw : ∃ c ∈ m, isPySpace c = false) (hr : r ≠ []) (hs : s ≠ []) :
    ∀ l1 ∈ formatLines defaultLogC m r s, ∀ l2 ∈ formatLines defaultLogC m r s,
      wcswidth l1 = wcswidth l2 := by
  intro l1 h1 l2 h2
  obtain ⟨hlen1, hA1⟩ := c5core m r s hmA hrA hsA hmw hr hs l1 h1
  obtain ⟨hlen2, hA2⟩ := c5core m r s hmA hrA hsA hmw hr hs l2 h2
  rw [wcswidth_ascii hA1, wcswidth_ascii hA2, hlen1, hlen2]

/-- C5 counterexample: with the default configuration, a message starting
with the full-width character `Ａ` (display width 2) renders to two output
lines of display widths 81 and 80 — alignment by display columns fails,
because `format_line` pads by character count. -/
theorem c5_counterexample :
    (formatLines defaultLogC ('Ａ' :: List.replicate 60 'a') ['r']
      ['O', 'K']).map wcswidth = [81, 80] := by decide

theorem c5_witness :
    wcswidth ((formatLines defaultLogC (List.replicate 60 'a') ['r']
        ['O', 'K']).getD 0 []) =
      wcswidth ((formatLines defaultLogC (List.replicate 60 'a') ['r']
        ['O', 'K']).getD 1 []) := by
  have h := c5_alignment_amended (List.replicate 60 'a') ['r'] ['O', 'K']
    (by decide) (by decide) (by decide) (by decide) (by decide) (by decide)
  exact h _ (by decide) _ (by decide)
